import Mathlib

/-!
Verification of the net-list management subsystem of a PCB CAD application
(`NETINFO_LIST` / `NETINFO_MAPPING`, file `pcbnew/netinfo_list.cpp`).

The C++ state is embedded shallowly:
* `NETINFO_ITEM` (class declared in the missing header `netinfo.h`; its
  fields `m_netCode`, `m_netname`, `m_isCurrent` are visible through the
  accesses made in `netinfo_list.cpp`) becomes the structure `NetItem`.
* Pointers become natural-number identifiers resolved through a heap
  function `Nat → NetItem`; `nextPtr` is the allocation counter.
* `std::map` becomes an association list kept sorted by key; `insert`
  never overwrites an existing key, and iteration is list order
  (ascending keys), exactly as for `std::map`.
-/

/-- One electrical-net record (`NETINFO_ITEM`). Only the fields read or
written by `netinfo_list.cpp` are modelled: the integer net code, the
net name and the liveness flag. -/
structure NetItem where
  m_netCode : Int
  m_netname : String
  m_isCurrent : Bool
deriving DecidableEq, Repr, Inhabited

/-- The registry state (`NETINFO_LIST`), plus the pointer heap that the
C++ runtime provides implicitly. -/
structure NetState where
  heap : Nat → NetItem
  nextPtr : Nat
  m_netNames : List (String × Nat)
  m_netCodes : List (Int × Nat)
  m_newNetCode : Int
  m_DisplayNetnamesDirty : Bool

/-- Keys of an association list (the iteration order of a `std::map`
is its key order; the lists are kept sorted by key). -/
def keysOf {α β : Type} (l : List (α × β)) : List α := l.map Prod.fst

/-- Values of an association list. -/
def valuesOf {α β : Type} (l : List (α × β)) : List β := l.map Prod.snd

/-- `std::map::find`: first entry with the given key. -/
def lookupKey {α β : Type} [DecidableEq α] : List (α × β) → α → Option β
  | [], _ => none
  | e :: t, k => if e.1 = k then some e.2 else lookupKey t k

/-- `k` is a key of the map (`std::map::count(k) != 0`). -/
def containsKey {α β : Type} [DecidableEq α] (l : List (α × β)) (k : α) : Prop :=
  k ∈ keysOf l

instance {α β : Type} [DecidableEq α] (l : List (α × β)) (k : α) :
    Decidable (containsKey l k) := by
  unfold containsKey; infer_instance

/-- `std::map::insert`: insert at the sorted position; if the key is
already present the map is unchanged (no overwrite). -/
def mapInsert {α β : Type} [LinearOrder α] : List (α × β) → α → β → List (α × β)
  | [], k, v => [(k, v)]
  | e :: t, k, v =>
    if k < e.1 then (k, v) :: e :: t
    else if k = e.1 then e :: t
    else e :: mapInsert t k v

/-- `std::map::insert` for the by-name index: no overwrite when the key is
present, otherwise the entry is added.  The by-name map is only ever
observed through key lookup and membership (its iteration order is never
load-bearing in `netinfo_list.cpp`: the by-name loop of `RemoveNet` can
match at most one entry in any state considered), so the new entry is
appended instead of placed at the key-sorted position, which keeps the
evaluation independent of the string ordering. -/
def nameMapInsert (m : List (String × Nat)) (k : String) (v : Nat) : List (String × Nat) :=
  if containsKey m k then m else m ++ [(k, v)]

/-- Erase the first entry whose mapped value is `p` (the erase-by-value
loops of `NETINFO_LIST::RemoveNet`, which `break` after one hit). -/
def eraseFirstValue {α β : Type} [DecidableEq β] : List (α × β) → β → List (α × β)
  | [], _ => []
  | e :: t, p => if e.2 = p then t else e :: eraseFirstValue t p

/-- The scanning loop of `NETINFO_LIST::getFreeNetCode`:
`do { if (m_newNetCode < 0) m_newNetCode = 0; } while (m_netCodes.count(++m_newNetCode) != 0)`.
`code` is the current value of `m_newNetCode`; the fuel argument bounds
the number of iterations (the C++ loop terminates because the map is
finite; `listLength + 1` iterations always suffice, as proved below). -/
def getFreeNetCodeLoop (codes : List (Int × Nat)) : Int → Nat → Int
  | code, 0 => code
  | code, fuel + 1 =>
    let c := (if code < 0 then 0 else code) + 1
    if containsKey codes c then getFreeNetCodeLoop codes c fuel else c

/-- `NETINFO_LIST::getFreeNetCode` (lines 223-232): scan upward from the
hint for the first unused code; return it and retain it as the hint. -/
def getFreeNetCode (st : NetState) : Int × NetState :=
  let r := getFreeNetCodeLoop st.m_netCodes st.m_newNetCode (st.m_netCodes.length + 1)
  (r, { st with m_newNetCode := r })

/-- Heap update at one pointer. -/
def updateHeap (h : Nat → NetItem) (p : Nat) (it : NetItem) : Nat → NetItem :=
  fun q => if q = p then it else h q

/-- `NETINFO_LIST::AppendNet` (lines 146-173). If a record with the same
name exists, the argument's code is overwritten with the existing one's
code and nothing else changes. Otherwise a code is allocated when the
proposed one is not the registry size or is negative, and the record is
inserted into both indices. The two `assert`s of the source (no-ops in
release builds) are not modelled; on the asserted-impossible inputs the
`std::map::insert` calls silently keep the old entry, which `mapInsert`
reproduces. -/
def AppendNet (st : NetState) (p : Nat) : NetState :=
  match lookupKey st.m_netNames (st.heap p).m_netname with
  | some q =>
    let it := { st.heap p with m_netCode := (st.heap q).m_netCode }
    { st with heap := updateHeap st.heap p it }
  | none =>
    let st1 :=
      if (st.heap p).m_netCode ≠ (st.m_netCodes.length : Int) ∨ (st.heap p).m_netCode < 0 then
        let r := (getFreeNetCode st).1
        let it := { st.heap p with m_netCode := r }
        { (getFreeNetCode st).2 with heap := updateHeap st.heap p it }
      else st
    { st1 with
      m_netNames := nameMapInsert st1.m_netNames (st1.heap p).m_netname p,
      m_netCodes := mapInsert st1.m_netCodes (st1.heap p).m_netCode p,
      m_DisplayNetnamesDirty := true }

/-- `NETINFO_LIST::RemoveNet` (lines 87-117): erase the first entry
holding the pointer from each index; if the pointer was found in the
by-code index, lower the hint to `min(hint, code - 1)` and mark display
names stale.  (The `wxASSERT_MSG` in the by-name loop is a no-op in
release builds; the erase runs regardless.) -/
def RemoveNet (st : NetState) (p : Nat) : NetState :=
  let removed := st.m_netCodes.any (fun e => e.2 == p)
  let st' := { st with
    m_netCodes := eraseFirstValue st.m_netCodes p,
    m_netNames := eraseFirstValue st.m_netNames p }
  if removed then
    { st' with
      m_newNetCode := min st.m_newNetCode ((st.heap p).m_netCode - 1),
      m_DisplayNetnamesDirty := true }
  else st'

/-- Loop body of `NETINFO_LIST::RemoveUnusedNets` (lines 120-143):
iterate over the saved by-code map in ascending code order; re-insert
current records into both (freshly cleared) indices; for the rest set
the stale flag and, when a commit sink is present, notify it.  The
fourth component accumulates the sequence of `aCommit->Removed` calls. -/
def pruneAux (heap : Nat → NetItem) (hasSink : Bool) :
    List (Int × Nat) → List (String × Nat) → List (Int × Nat) → Bool → List Nat →
    List (String × Nat) × List (Int × Nat) × Bool × List Nat
  | [], nm, cd, d, ns => (nm, cd, d, ns)
  | (c, p) :: t, nm, cd, d, ns =>
    if (heap p).m_isCurrent then
      pruneAux heap hasSink t (nameMapInsert nm (heap p).m_netname p) (mapInsert cd c p) d ns
    else
      pruneAux heap hasSink t nm cd true (ns ++ if hasSink then [p] else [])

/-- `NETINFO_LIST::RemoveUnusedNets`: the resulting state together with
the list of pointers reported to the commit sink (empty when no sink is
provided, i.e. `aCommit == nullptr`). -/
def RemoveUnusedNets (st : NetState) (hasSink : Bool) : NetState × List Nat :=
  let r := pruneAux st.heap hasSink st.m_netCodes [] [] st.m_DisplayNetnamesDirty []
  ({ st with m_netNames := r.1, m_netCodes := r.2.1, m_DisplayNetnamesDirty := r.2.2.1 },
   r.2.2.2)

/-- The state before the `NETINFO_LIST` constructor body runs: empty
indices, hint `0`, and an empty heap. -/
def emptyNetState : NetState :=
  { heap := fun _ => default, nextPtr := 0, m_netNames := [], m_netCodes := [],
    m_newNetCode := 0, m_DisplayNetnamesDirty := false }

/-- Allocate a fresh record on the heap (`new NETINFO_ITEM(parent, name,
code)`).  The constructor of `NETINFO_ITEM` lives in the missing header;
modelled from the spec: it stores the given name and code, and a record
starts in the `Active(current = true)` state of the spec's state
machine. -/
def allocItem (st : NetState) (nm : String) (c : Int) : NetState × Nat :=
  ({ st with heap := updateHeap st.heap st.nextPtr ⟨c, nm, true⟩,
             nextPtr := st.nextPtr + 1 },
   st.nextPtr)

/-- The `NETINFO_LIST` constructor (lines 37-43): append the reserved
unconnected net, code `0`, empty name. -/
def freshRegistry : NetState :=
  let a := allocItem emptyNetState "" 0
  AppendNet a.1 a.2

/-! ### The net-code remapper (`NETINFO_MAPPING`) -/

/-- A drawing-layer board item: only its dynamic kind (is it a
`PCB_SHAPE`?) and its net code matter to `NETINFO_MAPPING::Update`. -/
structure Drawing where
  isShape : Bool
  netCode : Int
deriving DecidableEq, Repr

/-- The `BOARD` collaborator as consumed by `NETINFO_MAPPING::Update`:
the net codes of its zones, tracks, drawings, and of every pad of every
footprint. -/
structure Board where
  zones : List Int
  tracks : List Int
  drawings : List Drawing
  footprints : List (List Int)
deriving DecidableEq, Repr

/-- `std::set<int>::insert`: sorted insertion without duplicates. -/
def setInsert : List Int → Int → List Int
  | [], n => [n]
  | m :: t, n =>
    if n < m then n :: m :: t
    else if n = m then m :: t
    else m :: setInsert t n

/-- The collection phase of `NETINFO_MAPPING::Update` (lines 247-279):
the mandatory code `0`, every zone and track net code, the net code of
every drawing that is a shape with positive net code, and every pad's
net code. -/
def collectNets (b : Board) : List Int :=
  let s := setInsert [] 0
  let s := b.zones.foldl setInsert s
  let s := b.tracks.foldl setInsert s
  let s := b.drawings.foldl
    (fun acc d => if d.isShape then (if d.netCode > 0 then setInsert acc d.netCode else acc)
                  else acc) s
  b.footprints.foldl (fun acc pads => pads.foldl setInsert acc) s

/-- The numbering phase of `NETINFO_MAPPING::Update` (lines 281-289):
assign consecutive codes, starting at `k`, to the collected codes in
ascending order. -/
def numberFrom : List Int → Int → List (Int × Int)
  | [], _ => []
  | n :: t, k => (n, k) :: numberFrom t (k + 1)

/-- `NETINFO_MAPPING::Update`: rebuild `m_netMapping` from scratch. -/
def mappingUpdate (b : Board) : List (Int × Int) :=
  numberFrom (collectNets b) 0

/-- `NETINFO_MAPPING::Translate` (lines 235-244): the mapped value when
present, the input code unchanged otherwise. -/
def Translate (m : List (Int × Int)) (c : Int) : Int :=
  match lookupKey m c with
  | some v => v
  | none => c

/-! ### Association-list lemmas -/

theorem containsKey_cons {α β : Type} [DecidableEq α] (e : α × β) (t : List (α × β)) (k : α) :
    containsKey (e :: t) k ↔ k = e.1 ∨ containsKey t k := by
  simp [containsKey, keysOf]

theorem containsKey_nil {α β : Type} [DecidableEq α] (k : α) :
    ¬ containsKey ([] : List (α × β)) k := by
  simp [containsKey, keysOf]

theorem lookupKey_eq_none {α β : Type} [DecidableEq α] (l : List (α × β)) (k : α) :
    lookupKey l k = none ↔ ¬ containsKey l k := by
  induction l with
  | nil => simp [lookupKey, containsKey, keysOf]
  | cons e t ih =>
    rw [containsKey_cons]
    by_cases h : e.1 = k
    · simp [lookupKey, h]
    · have h' : ¬ (k = e.1) := fun hk => h hk.symm
      simp [lookupKey, h, ih, not_or, h']

theorem lookupKey_mem {α β : Type} [DecidableEq α] {l : List (α × β)} {k : α} {v : β}
    (h : lookupKey l k = some v) : (k, v) ∈ l := by
  induction l with
  | nil => simp [lookupKey] at h
  | cons e t ih =>
    obtain ⟨a, b⟩ := e
    by_cases he : a = k
    · simp [lookupKey, he] at h
      rw [List.mem_cons]
      left
      simp [he, h]
    · simp [lookupKey, he] at h
      exact List.mem_cons.2 (Or.inr (ih h))

theorem mapInsert_cons_lt {α β : Type} [LinearOrder α] {e : α × β} {t : List (α × β)}
    {k : α} (v : β) (h : k < e.1) : mapInsert (e :: t) k v = (k, v) :: e :: t := by
  simp [mapInsert, h]

theorem mapInsert_cons_eq {α β : Type} [LinearOrder α] {e : α × β} {t : List (α × β)}
    {k : α} (v : β) (h : k = e.1) : mapInsert (e :: t) k v = e :: t := by
  simp [mapInsert, h, lt_irrefl]

theorem mapInsert_cons_gt {α β : Type} [LinearOrder α] {e : α × β} {t : List (α × β)}
    {k : α} (v : β) (h : e.1 < k) : mapInsert (e :: t) k v = e :: mapInsert t k v := by
  have h1 : ¬ (k < e.1) := not_lt.2 (le_of_lt h)
  have h2 : ¬ (k = e.1) := fun he => absurd (he ▸ h) (lt_irrefl k)
  simp [mapInsert, h1, h2]

theorem mem_of_mem_mapInsert {α β : Type} [LinearOrder α] {m : List (α × β)} {k : α} {v : β}
    {e : α × β} (h : e ∈ mapInsert m k v) : e ∈ m ∨ e = (k, v) := by
  induction m with
  | nil =>
    simp [mapInsert] at h
    exact Or.inr h
  | cons e' t ih =>
    rcases lt_trichotomy k e'.1 with hlt | heq | hgt
    · rw [mapInsert_cons_lt v hlt, List.mem_cons] at h
      rcases h with h | h
      · exact Or.inr h
      · exact Or.inl h
    · rw [mapInsert_cons_eq v heq] at h
      exact Or.inl h
    · rw [mapInsert_cons_gt v hgt, List.mem_cons] at h
      rcases h with h | h
      · exact Or.inl (List.mem_cons.2 (Or.inl h))
      · rcases ih h with h' | h'
        · exact Or.inl (List.mem_cons.2 (Or.inr h'))
        · exact Or.inr h'

theorem mem_mapInsert_of_mem {α β : Type} [LinearOrder α] {m : List (α × β)} (k : α) (v : β)
    {e : α × β} (h : e ∈ m) : e ∈ mapInsert m k v := by
  induction m with
  | nil => simp at h
  | cons e' t ih =>
    rcases lt_trichotomy k e'.1 with hlt | heq | hgt
    · rw [mapInsert_cons_lt v hlt]
      exact List.mem_cons.2 (Or.inr h)
    · rw [mapInsert_cons_eq v heq]
      exact h
    · rw [mapInsert_cons_gt v hgt]
      rcases List.mem_cons.1 h with h' | h'
      · exact List.mem_cons.2 (Or.inl h')
      · exact List.mem_cons.2 (Or.inr (ih h'))

theorem self_mem_mapInsert {α β : Type} [LinearOrder α] {m : List (α × β)} {k : α} (v : β)
    (h : ¬ containsKey m k) : (k, v) ∈ mapInsert m k v := by
  induction m with
  | nil => simp [mapInsert]
  | cons e' t ih =>
    rw [containsKey_cons, not_or] at h
    rcases lt_trichotomy k e'.1 with hlt | heq | hgt
    · rw [mapInsert_cons_lt v hlt]
      exact List.mem_cons.2 (Or.inl rfl)
    · exact absurd heq h.1
    · rw [mapInsert_cons_gt v hgt]
      exact List.mem_cons.2 (Or.inr (ih h.2))

theorem containsKey_mapInsert {α β : Type} [LinearOrder α] (m : List (α × β)) (k : α) (v : β)
    (k' : α) : containsKey (mapInsert m k v) k' ↔ k' = k ∨ containsKey m k' := by
  induction m with
  | nil => simp [mapInsert, containsKey, keysOf]
  | cons e' t ih =>
    rcases lt_trichotomy k e'.1 with hlt | heq | hgt
    · rw [mapInsert_cons_lt v hlt, containsKey_cons, containsKey_cons]
    · rw [mapInsert_cons_eq v heq, containsKey_cons]
      constructor
      · exact Or.inr
      · rintro (h | h)
        · exact Or.inl (h.trans heq)
        · exact h
    · rw [mapInsert_cons_gt v hgt, containsKey_cons, containsKey_cons, ih]
      tauto

theorem mapInsert_of_containsKey {α β : Type} [LinearOrder α] {m : List (α × β)} {k : α} (v : β)
    (hs : List.Sorted (· < ·) (keysOf m)) (h : containsKey m k) : mapInsert m k v = m := by
  induction m with
  | nil => exact absurd h (containsKey_nil k)
  | cons e' t ih =>
    rw [containsKey_cons] at h
    rw [keysOf, List.map_cons, List.sorted_cons] at hs
    rcases h with h | h
    · exact mapInsert_cons_eq v h
    · have hgt : e'.1 < k := hs.1 k h
      rw [mapInsert_cons_gt v hgt, ih hs.2 h]

theorem sorted_mapInsert {α β : Type} [LinearOrder α] {m : List (α × β)} (k : α) (v : β)
    (hs : List.Sorted (· < ·) (keysOf m)) :
    List.Sorted (· < ·) (keysOf (mapInsert m k v)) := by
  induction m with
  | nil => simp [mapInsert, keysOf]
  | cons e' t ih =>
    rw [keysOf, List.map_cons, List.sorted_cons] at hs
    rcases lt_trichotomy k e'.1 with hlt | heq | hgt
    · rw [mapInsert_cons_lt v hlt, keysOf, List.map_cons, List.map_cons, List.sorted_cons]
      constructor
      · intro b hb
        rcases List.mem_cons.1 hb with h' | h'
        · exact h' ▸ hlt
        · exact lt_trans hlt (hs.1 b h')
      · rw [List.sorted_cons]
        exact hs
    · rw [mapInsert_cons_eq v heq, keysOf, List.map_cons, List.sorted_cons]
      exact hs
    · rw [mapInsert_cons_gt v hgt, keysOf, List.map_cons, List.sorted_cons]
      constructor
      · intro b hb
        rw [keysOf] at ih
        rcases List.mem_map.1 hb with ⟨e, he, rfl⟩
        rcases mem_of_mem_mapInsert he with h' | h'
        · exact hs.1 e.1 (List.mem_map.2 ⟨e, h', rfl⟩)
        · rw [h']
          exact hgt
      · exact ih hs.2

theorem mapInsert_append {α β : Type} [LinearOrder α] {m : List (α × β)} {k : α} (v : β)
    (h : ∀ k' ∈ keysOf m, k' < k) : mapInsert m k v = m ++ [(k, v)] := by
  induction m with
  | nil => simp [mapInsert]
  | cons e' t ih =>
    have h1 : e'.1 < k := h e'.1 (by simp [keysOf])
    rw [mapInsert_cons_gt v h1, List.cons_append]
    rw [ih (fun k' hk' => h k' (by rw [keysOf, List.map_cons]; exact List.mem_cons.2 (Or.inr hk')))]

/-! ### Erase-by-value lemmas -/

theorem eraseFirstValue_sublist {α β : Type} [DecidableEq β] (l : List (α × β)) (p : β) :
    List.Sublist (eraseFirstValue l p) l := by
  induction l with
  | nil => simp [eraseFirstValue]
  | cons e t ih =>
    by_cases h : e.2 = p
    · simp [eraseFirstValue, h]
    · simp only [eraseFirstValue, if_neg h]
      exact List.Sublist.cons₂ e ih

theorem eraseFirstValue_of_absent {α β : Type} [DecidableEq β] {l : List (α × β)} {p : β}
    (h : ∀ e ∈ l, e.2 ≠ p) : eraseFirstValue l p = l := by
  induction l with
  | nil => simp [eraseFirstValue]
  | cons e t ih =>
    have h1 : e.2 ≠ p := h e (List.mem_cons.2 (Or.inl rfl))
    simp only [eraseFirstValue, if_neg h1]
    rw [ih (fun e' he' => h e' (List.mem_cons.2 (Or.inr he')))]

theorem mem_eraseFirstValue_of_ne {α β : Type} [DecidableEq β] {l : List (α × β)} {p : β}
    {e : α × β} (hm : e ∈ l) (hne : e.2 ≠ p) : e ∈ eraseFirstValue l p := by
  induction l with
  | nil => simp at hm
  | cons e' t ih =>
    by_cases h : e'.2 = p
    · simp only [eraseFirstValue, if_pos h]
      rcases List.mem_cons.1 hm with h' | h'
      · exact absurd (h' ▸ h) hne
      · exact h'
    · simp only [eraseFirstValue, if_neg h]
      rcases List.mem_cons.1 hm with h' | h'
      · exact List.mem_cons.2 (Or.inl h')
      · exact List.mem_cons.2 (Or.inr (ih h'))

theorem value_not_mem_eraseFirstValue {α β : Type} [DecidableEq β] {l : List (α × β)} {p : β}
    (hnd : (valuesOf l).Nodup) : p ∉ valuesOf (eraseFirstValue l p) := by
  induction l with
  | nil => simp [eraseFirstValue, valuesOf]
  | cons e t ih =>
    rw [valuesOf, List.map_cons, List.nodup_cons] at hnd
    by_cases h : e.2 = p
    · simp only [eraseFirstValue, if_pos h]
      intro hc
      exact hnd.1 (h ▸ hc)
    · simp only [eraseFirstValue, if_neg h]
      rw [valuesOf, List.map_cons]
      intro hc
      rcases List.mem_cons.1 hc with h' | h'
      · exact h h'.symm
      · exact ih hnd.2 h'

/-! ### The free-code scan -/

theorem countP_ge_le {l : List Int} (c : Int) :
    l.countP (fun x => decide (c + 1 ≤ x)) ≤ l.countP (fun x => decide (c ≤ x)) := by
  induction l with
  | nil => simp
  | cons a t ih =>
    rw [List.countP_cons, List.countP_cons]
    by_cases h1 : c + 1 ≤ a
    · have h2 : c ≤ a := by omega
      simp [h1, h2]
      omega
    · simp [h1]
      by_cases h2 : c ≤ a <;> simp [h2] <;> omega

theorem countP_ge_lt_of_mem {l : List Int} {c : Int} (h : c ∈ l) :
    l.countP (fun x => decide (c + 1 ≤ x)) < l.countP (fun x => decide (c ≤ x)) := by
  induction l with
  | nil => simp at h
  | cons a t ih =>
    rw [List.countP_cons, List.countP_cons]
    rcases List.mem_cons.1 h with h' | h'
    · subst h'
      have h1 : ¬ (c + 1 ≤ c) := by omega
      have h2 : c ≤ c := le_refl c
      simp [h1, h2]
      have := countP_ge_le (l := t) c
      omega
    · have hlt := ih h'
      by_cases h1 : c + 1 ≤ a
      · have h2 : c ≤ a := by omega
        simp [h1, h2]
        omega
      · simp [h1]
        by_cases h2 : c ≤ a <;> simp [h2] <;> omega

theorem getFreeNetCodeLoop_spec (codes : List (Int × Nat)) :
    ∀ (fuel : Nat) (code : Int),
      (keysOf codes).countP (fun x => decide (max code 0 + 1 ≤ x)) < fuel →
      ¬ containsKey codes (getFreeNetCodeLoop codes code fuel) ∧
      max code 0 < getFreeNetCodeLoop codes code fuel ∧
      ∀ d, max code 0 < d → d < getFreeNetCodeLoop codes code fuel → containsKey codes d := by
  intro fuel
  induction fuel with
  | zero => intro code h; omega
  | succ n ih =>
    intro code h
    have hmax : (if code < 0 then 0 else code) = max code 0 := by split <;> omega
    have hunf : getFreeNetCodeLoop codes code (n + 1) =
        if containsKey codes (max code 0 + 1) then
          getFreeNetCodeLoop codes (max code 0 + 1) n
        else max code 0 + 1 := by
      simp only [getFreeNetCodeLoop, hmax]
    by_cases hc : containsKey codes (max code 0 + 1)
    · rw [hunf, if_pos hc]
      have hm : max (max code 0 + 1) 0 = max code 0 + 1 := by omega
      have hfuel : (keysOf codes).countP
          (fun x => decide (max (max code 0 + 1) 0 + 1 ≤ x)) < n := by
        rw [hm]
        have h1 := countP_ge_lt_of_mem (l := keysOf codes) (c := max code 0 + 1) hc
        have h2 : 0 < (keysOf codes).countP (fun x => decide (max code 0 + 1 ≤ x)) :=
          List.countP_pos_iff.2 ⟨max code 0 + 1, hc, by simp⟩
        omega
      obtain ⟨ha, hb, hd⟩ := ih (max code 0 + 1) hfuel
      rw [hm] at hb hd
      refine ⟨ha, by omega, ?_⟩
      intro d hd1 hd2
      rcases eq_or_lt_of_le (show max code 0 + 1 ≤ d by omega) with he | he
      · exact he ▸ hc
      · exact hd d he hd2
    · rw [hunf, if_neg hc]
      exact ⟨hc, by omega, fun d h1 h2 => absurd h2 (by omega)⟩

theorem getFreeNetCode_spec (st : NetState) :
    ¬ containsKey st.m_netCodes (getFreeNetCode st).1 ∧
    max st.m_newNetCode 0 < (getFreeNetCode st).1 ∧
    (∀ d, max st.m_newNetCode 0 < d → d < (getFreeNetCode st).1 →
      containsKey st.m_netCodes d) ∧
    (getFreeNetCode st).2 = { st with m_newNetCode := (getFreeNetCode st).1 } := by
  have hfuel : (keysOf st.m_netCodes).countP
      (fun x => decide (max st.m_newNetCode 0 + 1 ≤ x)) < st.m_netCodes.length + 1 := by
    have h1 := List.countP_le_length
      (p := fun x => decide (max st.m_newNetCode 0 + 1 ≤ x)) (l := keysOf st.m_netCodes)
    have h2 : (keysOf st.m_netCodes).length = st.m_netCodes.length := List.length_map _ _
    omega
  obtain ⟨ha, hb, hd⟩ := getFreeNetCodeLoop_spec st.m_netCodes
    (st.m_netCodes.length + 1) st.m_newNetCode hfuel
  exact ⟨ha, hb, hd, rfl⟩

/-! ### Claim C5 -/

/-- C5: every call to `getFreeNetCode` returns the least code strictly above
`max(nextCodeHint, 0)` that is not a key of the by-code index (the loop
increments before each membership test, so the scan starts at
`max(nextCodeHint, 0)` and the first code tested is one above it), stores the
returned code as the new hint, and leaves everything else unchanged; returned
codes are strictly increasing across calls as long as the hint has not been
lowered below the previously returned code in between. -/
theorem C5_getFreeNetCode_scan (st : NetState) :
    max st.m_newNetCode 0 < (getFreeNetCode st).1 ∧
    ¬ containsKey st.m_netCodes (getFreeNetCode st).1 ∧
    (∀ d, max st.m_newNetCode 0 < d → d < (getFreeNetCode st).1 →
      containsKey st.m_netCodes d) ∧
    (getFreeNetCode st).2 = { st with m_newNetCode := (getFreeNetCode st).1 } ∧
    (∀ st2 : NetState, (getFreeNetCode st).1 ≤ st2.m_newNetCode →
      (getFreeNetCode st).1 < (getFreeNetCode st2).1) := by
  obtain ⟨ha, hb, hd, he⟩ := getFreeNetCode_spec st
  refine ⟨hb, ha, hd, he, ?_⟩
  intro st2 hle
  obtain ⟨_, hb2, _, _⟩ := getFreeNetCode_spec st2
  omega

/-- Witness for C5: on the fresh registry the scan returns 1 and stores it as
the hint; a second call (hint now 1 ≥ 1) returns a strictly larger code. -/
theorem C5_witness :
    (getFreeNetCode freshRegistry).1 ≤ ((getFreeNetCode freshRegistry).2).m_newNetCode ∧
    (getFreeNetCode freshRegistry).1 <
      (getFreeNetCode ((getFreeNetCode freshRegistry).2)).1 :=
  ⟨by decide,
   (C5_getFreeNetCode_scan freshRegistry).2.2.2.2 ((getFreeNetCode freshRegistry).2)
     (by decide)⟩

/-! ### Claim C9 -/

/-- C9: calling `RemoveNet` on a record that is in neither index is a complete
no-op: the resulting state is equal to the input state (both indices, the code
hint, the staleness flag and the heap are untouched, and no error is
signalled). -/
theorem C9_remove_absent_noop (st : NetState) (p : Nat)
    (hc : ∀ e ∈ st.m_netCodes, e.2 ≠ p) (hn : ∀ e ∈ st.m_netNames, e.2 ≠ p) :
    RemoveNet st p = st := by
  have h1 : st.m_netCodes.any (fun e => e.2 == p) = false := by
    rw [List.any_eq_false]
    intro e he
    simpa using hc e he
  unfold RemoveNet
  rw [h1, eraseFirstValue_of_absent hc, eraseFirstValue_of_absent hn]
  simp

/-- Witness for C9: pointer 5 is absent from the fresh registry and removing
it returns the state unchanged. -/
theorem C9_witness :
    (∀ e ∈ freshRegistry.m_netCodes, e.2 ≠ 5) ∧
    (∀ e ∈ freshRegistry.m_netNames, e.2 ≠ 5) ∧
    RemoveNet freshRegistry 5 = freshRegistry :=
  ⟨by decide, by decide, C9_remove_absent_noop freshRegistry 5 (by decide) (by decide)⟩

/-! ### Claim C2 -/

/-- C2: appending a record `p` whose name equals the name of a record `q`
already reachable through the by-name index inserts nothing (both indices are
exactly as before, so the registry size does not increase) and overwrites the
code of `p` with the code of `q`. -/
theorem C2_append_duplicate_name (st : NetState) (p q : Nat)
    (h : lookupKey st.m_netNames (st.heap p).m_netname = some q) :
    (AppendNet st p).m_netCodes = st.m_netCodes ∧
    (AppendNet st p).m_netNames = st.m_netNames ∧
    ((AppendNet st p).heap p).m_netCode = (st.heap q).m_netCode := by
  unfold AppendNet
  rw [h]
  exact ⟨rfl, rfl, by simp [updateHeap]⟩

/-- Witness for C2: a heap record named like the reserved empty-name net is
merged onto it: indices unchanged, its code becomes 0. -/
theorem C2_witness :
    lookupKey (allocItem freshRegistry "" 5).1.m_netNames
      ((allocItem freshRegistry "" 5).1.heap 1).m_netname = some 0 ∧
    (AppendNet (allocItem freshRegistry "" 5).1 1).m_netCodes =
      (allocItem freshRegistry "" 5).1.m_netCodes ∧
    (AppendNet (allocItem freshRegistry "" 5).1 1).m_netNames =
      (allocItem freshRegistry "" 5).1.m_netNames ∧
    ((AppendNet (allocItem freshRegistry "" 5).1 1).heap 1).m_netCode =
      ((allocItem freshRegistry "" 5).1.heap 0).m_netCode :=
  ⟨by decide, C2_append_duplicate_name (allocItem freshRegistry "" 5).1 1 0 (by decide)⟩

/-! ### Claim C10 -/

/-- C10: on the duplicate-name path of `AppendNet` the registry state is
entirely unchanged — both indices, the code hint, the staleness flag, and the
allocation counter are exactly as before, and the heap changes at no pointer
other than the argument record `p`, whose code field is set to the existing
record's code (in particular the stale flag is not set on this path). -/
theorem C10_append_duplicate_frame (st : NetState) (p q : Nat)
    (h : lookupKey st.m_netNames (st.heap p).m_netname = some q) :
    (AppendNet st p).m_netNames = st.m_netNames ∧
    (AppendNet st p).m_netCodes = st.m_netCodes ∧
    (AppendNet st p).m_newNetCode = st.m_newNetCode ∧
    (AppendNet st p).m_DisplayNetnamesDirty = st.m_DisplayNetnamesDirty ∧
    (AppendNet st p).nextPtr = st.nextPtr ∧
    (∀ r, r ≠ p → (AppendNet st p).heap r = st.heap r) ∧
    (AppendNet st p).heap p = { st.heap p with m_netCode := (st.heap q).m_netCode } := by
  unfold AppendNet
  rw [h]
  refine ⟨rfl, rfl, rfl, rfl, rfl, ?_, by simp [updateHeap]⟩
  intro r hr
  simp [updateHeap, hr]

/-- Witness for C10: the duplicate-name append touches nothing but the
argument record's code field. -/
theorem C10_witness :
    lookupKey (allocItem freshRegistry "" 7).1.m_netNames
      ((allocItem freshRegistry "" 7).1.heap 1).m_netname = some 0 ∧
    (AppendNet (allocItem freshRegistry "" 7).1 1).m_DisplayNetnamesDirty =
      (allocItem freshRegistry "" 7).1.m_DisplayNetnamesDirty :=
  ⟨by decide,
   ((C10_append_duplicate_frame (allocItem freshRegistry "" 7).1 1 0 (by decide)).2.2.2).1⟩

/-! ### Claim C8 -/

/-- The board of claim C8: its only referenced net codes are 0 (mandatory),
5 and 7 (tracks). -/
def boardC8 : Board :=
  { zones := [], tracks := [5, 7], drawings := [], footprints := [] }

/-- C8: recomputing on a board referencing exactly the codes 0, 5, 7 yields
the translation 0 to 0, 5 to 1, 7 to 2; `Translate` returns the mapped value
for mapped codes (so 5 goes to 1) and returns any unmapped code unchanged
(so 99 goes to 99). -/
theorem C8_concrete_mapping (c : Int) (h0 : c ≠ 0) (h5 : c ≠ 5) (h7 : c ≠ 7) :
    mappingUpdate boardC8 = [(0, 0), (5, 1), (7, 2)] ∧
    Translate (mappingUpdate boardC8) 5 = 1 ∧
    Translate (mappingUpdate boardC8) 99 = 99 ∧
    Translate (mappingUpdate boardC8) c = c := by
  have hm : mappingUpdate boardC8 = [(0, 0), (5, 1), (7, 2)] := by decide
  refine ⟨hm, by decide, by decide, ?_⟩
  rw [hm]
  simp [Translate, lookupKey, Ne.symm h0, Ne.symm h5, Ne.symm h7]

/-- Witness for C8 at the unmapped code 99. -/
theorem C8_witness :
    mappingUpdate boardC8 = [(0, 0), (5, 1), (7, 2)] ∧
    Translate (mappingUpdate boardC8) 99 = 99 :=
  ⟨(C8_concrete_mapping 99 (by decide) (by decide) (by decide)).1,
   (C8_concrete_mapping 99 (by decide) (by decide) (by decide)).2.2.2⟩

/-! ### Sorted-set lemmas for the remapper -/

theorem mem_setInsert (l : List Int) (n m : Int) :
    m ∈ setInsert l n ↔ m = n ∨ m ∈ l := by
  induction l with
  | nil => simp [setInsert]
  | cons a t ih =>
    rcases lt_trichotomy n a with hlt | heq | hgt
    · simp only [setInsert, if_pos hlt]
      simp
    · have h1 : ¬ (n < a) := by omega
      simp only [setInsert, if_neg h1, if_pos heq]
      subst heq
      simp
    · have h1 : ¬ (n < a) := by omega
      have h2 : ¬ (n = a) := by omega
      simp only [setInsert, if_neg h1, if_neg h2]
      simp [ih]
      tauto

theorem sorted_setInsert {l : List Int} (n : Int) (hs : List.Sorted (· < ·) l) :
    List.Sorted (· < ·) (setInsert l n) := by
  induction l with
  | nil => simp [setInsert]
  | cons a t ih =>
    rw [List.sorted_cons] at hs
    rcases lt_trichotomy n a with hlt | heq | hgt
    · simp only [setInsert, if_pos hlt]
      rw [List.sorted_cons]
      refine ⟨?_, List.sorted_cons.2 hs⟩
      intro b hb
      rcases List.mem_cons.1 hb with h' | h'
      · omega
      · have := hs.1 b h'
        omega
    · have h1 : ¬ (n < a) := by omega
      simp only [setInsert, if_neg h1, if_pos heq]
      exact List.sorted_cons.2 hs
    · have h1 : ¬ (n < a) := by omega
      have h2 : ¬ (n = a) := by omega
      simp only [setInsert, if_neg h1, if_neg h2]
      rw [List.sorted_cons]
      refine ⟨?_, ih hs.2⟩
      intro b hb
      rcases (mem_setInsert t n b).1 hb with h' | h'
      · omega
      · exact hs.1 b h'

theorem foldl_setInsert_sorted (l : List Int) :
    ∀ acc, List.Sorted (· < ·) acc → List.Sorted (· < ·) (l.foldl setInsert acc) := by
  induction l with
  | nil => intro acc h; exact h
  | cons a t ih =>
    intro acc h
    rw [List.foldl_cons]
    exact ih _ (sorted_setInsert a h)

theorem mem_foldl_setInsert (l : List Int) :
    ∀ acc m, m ∈ l.foldl setInsert acc ↔ m ∈ acc ∨ m ∈ l := by
  induction l with
  | nil => intro acc m; simp
  | cons a t ih =>
    intro acc m
    rw [List.foldl_cons, ih, mem_setInsert]
    simp
    tauto

theorem drawfold_sorted (l : List Drawing) :
    ∀ acc, List.Sorted (· < ·) acc →
      List.Sorted (· < ·) (l.foldl (fun acc d =>
        if d.isShape then (if d.netCode > 0 then setInsert acc d.netCode else acc)
        else acc) acc) := by
  induction l with
  | nil => intro acc h; exact h
  | cons a t ih =>
    intro acc h
    rw [List.foldl_cons]
    by_cases h1 : a.isShape = true
    · by_cases h2 : a.netCode > 0
      · simp only [h1, if_pos h2, if_true]
        exact ih _ (sorted_setInsert a.netCode h)
      · simp only [h1, if_neg h2, if_true]
        exact ih _ h
    · simp only [h1, if_false]
      exact ih _ h

theorem mem_drawfold (l : List Drawing) :
    ∀ acc m, m ∈ l.foldl (fun acc d =>
        if d.isShape then (if d.netCode > 0 then setInsert acc d.netCode else acc)
        else acc) acc ↔
      m ∈ acc ∨ ∃ d ∈ l, d.isShape = true ∧ 0 < d.netCode ∧ d.netCode = m := by
  induction l with
  | nil => intro acc m; simp
  | cons a t ih =>
    intro acc m
    rw [List.foldl_cons]
    by_cases h1 : a.isShape = true
    · by_cases h2 : a.netCode > 0
      · simp only [h1, if_pos h2, if_true]
        rw [ih, mem_setInsert]
        constructor
        · rintro ((h | h) | h)
          · exact Or.inr ⟨a, by simp, h1, h2, h.symm⟩
          · exact Or.inl h
          · rcases h with ⟨d, hd, hx⟩
            exact Or.inr ⟨d, by simp [hd], hx⟩
        · rintro (h | h)
          · exact Or.inl (Or.inr h)
          · rcases h with ⟨d, hd, hx⟩
            rcases List.mem_cons.1 hd with h' | h'
            · subst h'
              exact Or.inl (Or.inl hx.2.2.symm)
            · exact Or.inr ⟨d, h', hx⟩
      · simp only [h1, if_neg h2, if_true]
        rw [ih]
        constructor
        · rintro (h | ⟨d, hd, hx⟩)
          · exact Or.inl h
          · exact Or.inr ⟨d, by simp [hd], hx⟩
        · rintro (h | ⟨d, hd, hx⟩)
          · exact Or.inl h
          · rcases List.mem_cons.1 hd with h' | h'
            · subst h'
              exact absurd hx.2.1 (by omega)
            · exact Or.inr ⟨d, h', hx⟩
    · simp only [h1, if_false]
      rw [ih]
      constructor
      · rintro (h | ⟨d, hd, hx⟩)
        · exact Or.inl h
        · exact Or.inr ⟨d, by simp [hd], hx⟩
      · rintro (h | ⟨d, hd, hx⟩)
        · exact Or.inl h
        · rcases List.mem_cons.1 hd with h' | h'
          · subst h'
            exact absurd hx.1 (by simp [h1])
          · exact Or.inr ⟨d, h', hx⟩

theorem padfold_sorted (l : List (List Int)) :
    ∀ acc, List.Sorted (· < ·) acc →
      List.Sorted (· < ·) (l.foldl (fun acc pads => pads.foldl setInsert acc) acc) := by
  induction l with
  | nil => intro acc h; exact h
  | cons a t ih =>
    intro acc h
    rw [List.foldl_cons]
    exact ih _ (foldl_setInsert_sorted a acc h)

theorem mem_padfold (l : List (List Int)) :
    ∀ acc m, m ∈ l.foldl (fun acc pads => pads.foldl setInsert acc) acc ↔
      m ∈ acc ∨ ∃ pads ∈ l, m ∈ pads := by
  induction l with
  | nil => intro acc m; simp
  | cons a t ih =>
    intro acc m
    rw [List.foldl_cons, ih]
    rw [mem_foldl_setInsert]
    constructor
    · rintro ((h | h) | ⟨pads, hp, hm⟩)
      · exact Or.inl h
      · exact Or.inr ⟨a, by simp, h⟩
      · exact Or.inr ⟨pads, by simp [hp], hm⟩
    · rintro (h | ⟨pads, hp, hm⟩)
      · exact Or.inl (Or.inl h)
      · rcases List.mem_cons.1 hp with h' | h'
        · subst h'
          exact Or.inl (Or.inr hm)
        · exact Or.inr ⟨pads, h', hm⟩

theorem collectNets_sorted (b : Board) : List.Sorted (· < ·) (collectNets b) := by
  unfold collectNets
  apply padfold_sorted
  apply drawfold_sorted
  apply foldl_setInsert_sorted
  apply foldl_setInsert_sorted
  simp [setInsert]

theorem mem_collectNets (b : Board) (n : Int) :
    n ∈ collectNets b ↔
      n = 0 ∨ n ∈ b.zones ∨ n ∈ b.tracks ∨
      (∃ d ∈ b.drawings, d.isShape = true ∧ 0 < d.netCode ∧ d.netCode = n) ∨
      (∃ pads ∈ b.footprints, n ∈ pads) := by
  unfold collectNets
  rw [mem_padfold, mem_drawfold, mem_foldl_setInsert, mem_foldl_setInsert]
  have h0 : n ∈ setInsert [] 0 ↔ n = 0 := by simp [setInsert]
  rw [h0]
  simp only [or_assoc]

theorem valuesOf_numberFrom (l : List Int) :
    ∀ k : Int, valuesOf (numberFrom l k) =
      (List.range l.length).map (fun i : Nat => k + (i : Int)) := by
  induction l with
  | nil => intro k; simp [numberFrom, valuesOf]
  | cons a t ih =>
    intro k
    have h := ih (k + 1)
    unfold valuesOf at h ⊢
    simp only [numberFrom, List.map_cons, List.length_cons]
    rw [h, List.range_succ_eq_map, List.map_cons, List.map_map]
    congr 1
    · omega
    · apply List.map_congr_left
      intro i hi
      simp only [Function.comp]
      push_cast
      omega

theorem keysOf_numberFrom (l : List Int) : ∀ k, keysOf (numberFrom l k) = l := by
  induction l with
  | nil => intro k; simp [numberFrom, keysOf]
  | cons a t ih =>
    intro k
    have h := ih (k + 1)
    unfold keysOf at h ⊢
    simp only [numberFrom, List.map_cons]
    rw [h]

theorem sorted_head_zero {l : List Int} (hs : List.Sorted (· < ·) l) (h0 : (0 : Int) ∈ l)
    (hnn : ∀ n ∈ l, 0 ≤ n) : ∃ t, l = 0 :: t := by
  cases l with
  | nil => simp at h0
  | cons a t =>
    rw [List.sorted_cons] at hs
    rcases List.mem_cons.1 h0 with h' | h'
    · exact ⟨t, by rw [← h']⟩
    · have h1 := hs.1 0 h'
      have h2 := hnn a (by simp)
      omega

/-! ### Claim C4 -/

/-- C4 (amended): after every `mappingUpdate` the translation values are
exactly the consecutive codes `0..k-1`, assigned in ascending key order, where
`k` is the number of distinct referenced codes (the mandatory code 0
included); and — the amendment — code 0 maps to 0 provided no referenced net
code is negative.  (As stated, with "for any board contents", the claim is
false: a negative referenced code sorts below 0 in the collected set and
shifts the image of 0, see the counterexample.) -/
theorem C4_update_compacts (b : Board) :
    valuesOf (mappingUpdate b) =
      (List.range (collectNets b).length).map (fun i : Nat => (i : Int)) ∧
    keysOf (mappingUpdate b) = collectNets b ∧
    (collectNets b).Nodup ∧
    (∀ n, n ∈ collectNets b ↔
      (n = 0 ∨ n ∈ b.zones ∨ n ∈ b.tracks ∨
       (∃ d ∈ b.drawings, d.isShape = true ∧ 0 < d.netCode ∧ d.netCode = n) ∨
       (∃ pads ∈ b.footprints, n ∈ pads))) ∧
    ((∀ n ∈ collectNets b, 0 ≤ n) → Translate (mappingUpdate b) 0 = 0) := by
  refine ⟨?_, keysOf_numberFrom _ 0, ?_, mem_collectNets b, ?_⟩
  · rw [show mappingUpdate b = numberFrom (collectNets b) 0 from rfl,
      valuesOf_numberFrom (collectNets b) 0]
    apply List.map_congr_left
    intro i _
    omega
  · exact (collectNets_sorted b).nodup
  · intro hnn
    obtain ⟨t, ht⟩ := sorted_head_zero (collectNets_sorted b)
      ((mem_collectNets b 0).2 (Or.inl rfl)) hnn
    unfold mappingUpdate
    rw [ht]
    simp [numberFrom, Translate, lookupKey]

/-- Witness for C4 on the all-non-negative board `boardC8`. -/
theorem C4_witness :
    (∀ n ∈ collectNets boardC8, 0 ≤ n) ∧ Translate (mappingUpdate boardC8) 0 = 0 :=
  ⟨by decide, (C4_update_compacts boardC8).2.2.2.2 (by decide)⟩

/-- A board referencing a negative net code (as produced for orphaned
board items, cf. the `ORPHANED = -1` sentinel of `netinfo_list.cpp`). -/
def boardNeg : Board :=
  { zones := [], tracks := [-1], drawings := [], footprints := [] }

/-- C4 counterexample: with a single track of net code -1, the rebuilt
translation maps -1 to 0 and 0 to 1 — code 0 does not map to 0. -/
theorem C4_counterexample :
    mappingUpdate boardNeg = [(-1, 0), (0, 1)] ∧
    Translate (mappingUpdate boardNeg) 0 = 1 ∧ ¬ (Translate (mappingUpdate boardNeg) 0 = 0) := by
  decide

/-! ### Uniqueness helpers and branch characterizations -/

theorem entry_unique_fst {α β : Type} {l : List (α × β)}
    (h : (keysOf l).Nodup) {e1 e2 : α × β} (h1 : e1 ∈ l) (h2 : e2 ∈ l)
    (he : e1.1 = e2.1) : e1 = e2 := by
  unfold keysOf at h
  exact List.inj_on_of_nodup_map h h1 h2 he

theorem entry_unique_snd {α β : Type} {l : List (α × β)}
    (h : (valuesOf l).Nodup) {e1 e2 : α × β} (h1 : e1 ∈ l) (h2 : e2 ∈ l)
    (he : e1.2 = e2.2) : e1 = e2 := by
  unfold valuesOf at h
  exact List.inj_on_of_nodup_map h h1 h2 he

/-- `RemoveNet` when the pointer is found in the by-code index. -/
theorem RemoveNet_found (st : NetState) (p : Nat)
    (h : st.m_netCodes.any (fun e => e.2 == p) = true) :
    RemoveNet st p = { st with
      m_netCodes := eraseFirstValue st.m_netCodes p,
      m_netNames := eraseFirstValue st.m_netNames p,
      m_newNetCode := min st.m_newNetCode ((st.heap p).m_netCode - 1),
      m_DisplayNetnamesDirty := true } := by
  unfold RemoveNet
  rw [h]
  simp

/-- The duplicate-name branch of `AppendNet`, field by field. -/
theorem AppendNet_merge (st : NetState) (p q : Nat)
    (h : lookupKey st.m_netNames (st.heap p).m_netname = some q) :
    (AppendNet st p).m_netNames = st.m_netNames ∧
    (AppendNet st p).m_netCodes = st.m_netCodes ∧
    (AppendNet st p).m_newNetCode = st.m_newNetCode ∧
    (AppendNet st p).m_DisplayNetnamesDirty = st.m_DisplayNetnamesDirty ∧
    (AppendNet st p).nextPtr = st.nextPtr ∧
    (AppendNet st p).heap p = { st.heap p with m_netCode := (st.heap q).m_netCode } ∧
    (∀ r, r ≠ p → (AppendNet st p).heap r = st.heap r) := by
  unfold AppendNet
  rw [h]
  refine ⟨rfl, rfl, rfl, rfl, rfl, by simp [updateHeap], ?_⟩
  intro r hr
  simp [updateHeap, hr]

/-- The fresh-name, code-kept branch of `AppendNet` (proposed code equal to
the registry size and non-negative), field by field. -/
theorem AppendNet_keep (st : NetState) (p : Nat)
    (hlook : lookupKey st.m_netNames (st.heap p).m_netname = none)
    (hcond : ¬ ((st.heap p).m_netCode ≠ (st.m_netCodes.length : Int) ∨
                (st.heap p).m_netCode < 0)) :
    (AppendNet st p).m_netNames = nameMapInsert st.m_netNames (st.heap p).m_netname p ∧
    (AppendNet st p).m_netCodes = mapInsert st.m_netCodes (st.heap p).m_netCode p ∧
    (AppendNet st p).m_newNetCode = st.m_newNetCode ∧
    (AppendNet st p).m_DisplayNetnamesDirty = true ∧
    (AppendNet st p).nextPtr = st.nextPtr ∧
    (AppendNet st p).heap = st.heap := by
  unfold AppendNet
  rw [hlook, if_neg hcond]
  exact ⟨rfl, rfl, rfl, rfl, rfl, rfl⟩

/-- The fresh-name, code-allocated branch of `AppendNet`, field by field. -/
theorem AppendNet_alloc (st : NetState) (p : Nat)
    (hlook : lookupKey st.m_netNames (st.heap p).m_netname = none)
    (hcond : (st.heap p).m_netCode ≠ (st.m_netCodes.length : Int) ∨
             (st.heap p).m_netCode < 0) :
    (AppendNet st p).m_netNames = nameMapInsert st.m_netNames (st.heap p).m_netname p ∧
    (AppendNet st p).m_netCodes = mapInsert st.m_netCodes (getFreeNetCode st).1 p ∧
    (AppendNet st p).m_newNetCode = (getFreeNetCode st).1 ∧
    (AppendNet st p).m_DisplayNetnamesDirty = true ∧
    (AppendNet st p).nextPtr = st.nextPtr ∧
    (AppendNet st p).heap p = { st.heap p with m_netCode := (getFreeNetCode st).1 } ∧
    (∀ q, q ≠ p → (AppendNet st p).heap q = st.heap q) := by
  unfold AppendNet
  rw [hlook, if_pos hcond]
  refine ⟨?_, ?_, ?_, ?_, ?_, ?_, ?_⟩
  · simp [updateHeap, getFreeNetCode]
  · simp [updateHeap, getFreeNetCode]
  · simp [updateHeap, getFreeNetCode]
  · rfl
  · rfl
  · simp [updateHeap, getFreeNetCode]
  · intro q hq
    simp [updateHeap, getFreeNetCode, hq]

theorem containsKey_exists {α β : Type} [DecidableEq α] {l : List (α × β)} {k : α} :
    containsKey l k ↔ ∃ e ∈ l, e.1 = k := by
  simp [containsKey, keysOf]

theorem mem_valuesOf {α β : Type} {l : List (α × β)} {p : β} :
    p ∈ valuesOf l ↔ ∃ e ∈ l, e.2 = p := by
  simp [valuesOf]

/-! ### Claim C6 -/

/-- C6 (amended): in a consistent registry (keys and pointer values occur at
most once in the by-code index, and the record's heap code agrees with its
key), removing a record `p` holding code `c` and then appending a freshly
allocated record with a negative (auto-assign) code and a not-yet-present
name assigns the new record exactly the freed code `c`, whenever `c` was the
lowest code not in use after the removal (every code `0 ≤ d < c` is still a
key) — amended by the restriction `c ≥ 1`, because the allocation loop
pre-increments before testing and therefore never returns the reserved code
0 (see the counterexample for `c = 0`). -/
theorem C6_freed_code_reused (st : NetState) (p : Nat) (c : Int) (nm : String) (cneg : Int)
    (hmem : (c, p) ∈ st.m_netCodes)
    (hknd : (keysOf st.m_netCodes).Nodup)
    (hvnd : (valuesOf st.m_netCodes).Nodup)
    (hcode : (st.heap p).m_netCode = c)
    (hlow : ∀ d : Int, 0 ≤ d → d < c → containsKey st.m_netCodes d)
    (hc1 : 1 ≤ c)
    (hneg : cneg < 0)
    (hname : ¬ containsKey (RemoveNet st p).m_netNames nm) :
    (((AppendNet (allocItem (RemoveNet st p) nm cneg).1
        (allocItem (RemoveNet st p) nm cneg).2).heap
      (allocItem (RemoveNet st p) nm cneg).2).m_netCode) = c := by
  have hany : st.m_netCodes.any (fun e => e.2 == p) = true := by
    rw [List.any_eq_true]
    exact ⟨(c, p), hmem, by simp⟩
  set st1 := RemoveNet st p with hst1def
  have hrm : st1 = { st with
      m_netCodes := eraseFirstValue st.m_netCodes p,
      m_netNames := eraseFirstValue st.m_netNames p,
      m_newNetCode := min st.m_newNetCode ((st.heap p).m_netCode - 1),
      m_DisplayNetnamesDirty := true } := by
    rw [hst1def]
    exact RemoveNet_found st p hany
  have hcd1 : st1.m_netCodes = eraseFirstValue st.m_netCodes p := by rw [hrm]
  have hhint1 : st1.m_newNetCode = min st.m_newNetCode (c - 1) := by
    rw [hrm]
    simp [hcode]
  have hpval : p ∉ valuesOf (eraseFirstValue st.m_netCodes p) :=
    value_not_mem_eraseFirstValue hvnd
  have hcfree : ¬ containsKey st1.m_netCodes c := by
    rw [hcd1]
    intro hc
    rcases containsKey_exists.1 hc with ⟨e, he, hf⟩
    have hel : e ∈ st.m_netCodes := (eraseFirstValue_sublist _ _).subset he
    have heq : e = (c, p) := entry_unique_fst hknd hel hmem hf
    exact hpval (mem_valuesOf.2 ⟨e, he, by rw [heq]⟩)
  have hdkeys : ∀ d : Int, 0 ≤ d → d < c → containsKey st1.m_netCodes d := by
    intro d h0 hdc
    rcases containsKey_exists.1 (hlow d h0 hdc) with ⟨e, he, hf⟩
    have hne : e.2 ≠ p := by
      intro h2
      have heq : e = (c, p) := entry_unique_snd hvnd he hmem h2
      rw [heq] at hf
      simp at hf
      omega
    rw [hcd1]
    exact containsKey_exists.2 ⟨e, mem_eraseFirstValue_of_ne he hne, hf⟩
  set a := allocItem st1 nm cneg with hadef
  have hhp : a.1.heap a.2 = ⟨cneg, nm, true⟩ := by
    rw [hadef]
    simp [allocItem, updateHeap]
  have hnc : a.1.m_netCodes = st1.m_netCodes := by
    rw [hadef]
    rfl
  have hnh : a.1.m_newNetCode = st1.m_newNetCode := by
    rw [hadef]
    rfl
  have hlook : lookupKey a.1.m_netNames (a.1.heap a.2).m_netname = none := by
    rw [hhp]
    exact (lookupKey_eq_none _ _).2 hname
  have hcond : (a.1.heap a.2).m_netCode ≠ (a.1.m_netCodes.length : Int) ∨
      (a.1.heap a.2).m_netCode < 0 := by
    right
    rw [hhp]
    exact hneg
  obtain ⟨-, -, -, -, -, hheap, -⟩ := AppendNet_alloc a.1 a.2 hlook hcond
  rw [hheap]
  show (getFreeNetCode a.1).1 = c
  obtain ⟨hfree, hgt, hcov, -⟩ := getFreeNetCode_spec a.1
  have hintle : a.1.m_newNetCode ≤ c - 1 := by
    rw [hnh, hhint1]
    omega
  by_contra hne
  rcases lt_or_gt_of_ne hne with hlt | hgt2
  · have h0r : 0 ≤ (getFreeNetCode a.1).1 := by omega
    have hk := hdkeys _ h0r hlt
    rw [← hnc] at hk
    exact hfree hk
  · have hk := hcov c (by omega) hgt2
    rw [hnc] at hk
    exact hcfree hk

/-- C6 counterexample: for the reserved record (code 0) the claim fails.  On
the fresh registry, code 0 is the lowest code not in use after removing the
reserved record, the name "A" is not present, and yet the auto-assign append
receives code 1, not the freed code 0. -/
theorem C6_counterexample :
    (0, 0) ∈ freshRegistry.m_netCodes ∧
    (∀ d : Int, 0 ≤ d → d < 0 → containsKey freshRegistry.m_netCodes d) ∧
    ¬ containsKey (RemoveNet freshRegistry 0).m_netNames "A" ∧
    ¬ containsKey (RemoveNet freshRegistry 0).m_netCodes 0 ∧
    (((AppendNet (allocItem (RemoveNet freshRegistry 0) "A" (-1)).1
        (allocItem (RemoveNet freshRegistry 0) "A" (-1)).2).heap
      (allocItem (RemoveNet freshRegistry 0) "A" (-1)).2).m_netCode) = 1 := by
  refine ⟨by decide, ?_, by decide, by decide, by decide⟩
  intro d h0 hd
  omega

/-- A registry holding the reserved net plus "GND" (code 1, pointer 1) and
"B" (code 2, pointer 2), used to witness C6. -/
def wit6st : NetState :=
  AppendNet (allocItem (AppendNet (allocItem freshRegistry "GND" (-1)).1
    (allocItem freshRegistry "GND" (-1)).2) "B" (-1)).1
    (allocItem (AppendNet (allocItem freshRegistry "GND" (-1)).1
      (allocItem freshRegistry "GND" (-1)).2) "B" (-1)).2

/-- Witness for C6: removing "GND" (code 1) and appending auto-assign "C"
reuses the freed code 1. -/
theorem C6_witness :
    (1, 1) ∈ wit6st.m_netCodes ∧
    (((AppendNet (allocItem (RemoveNet wit6st 1) "C" (-1)).1
        (allocItem (RemoveNet wit6st 1) "C" (-1)).2).heap
      (allocItem (RemoveNet wit6st 1) "C" (-1)).2).m_netCode) = 1 :=
  ⟨by decide,
   C6_freed_code_reused wit6st 1 1 "C" (-1) (by decide) (by decide) (by decide) (by decide)
     (fun d h0 hd => by
       have hd0 : d = 0 := by omega
       subst hd0
       decide)
     (by decide) (by decide) (by decide)⟩

/-! ### Claim C1 -/

/-- A sequence of `AppendNet` calls, each on a freshly allocated record
(`new NETINFO_ITEM(parent, name, code)` followed by `AppendNet`, as in
`NETINFO_LIST`'s callers); returns the final state and the allocated
pointers in append order. -/
def runAppendList : NetState → List (String × Int) → NetState × List Nat
  | st, [] => (st, [])
  | st, (nm, c) :: t =>
    let a := allocItem st nm c
    let r := runAppendList (AppendNet a.1 a.2) t
    (r.1, a.2 :: r.2)

/-- Invariant driving C1: after `k` total records (the reserved one
included) with the names `used`, the by-code keys are exactly `0..k-1`,
the by-name keys are exactly `used`, the hint lies in `[0, k-1]`, and
`k` pointers have been allocated. -/
def CInv (st : NetState) (k : Nat) (used : List String) : Prop :=
  keysOf st.m_netCodes = (List.range k).map (fun i : Nat => (i : Int)) ∧
  (∀ nm, containsKey st.m_netNames nm ↔ nm ∈ used) ∧
  0 ≤ st.m_newNetCode ∧ st.m_newNetCode ≤ (k : Int) - 1 ∧
  st.nextPtr = k

theorem append_step (st : NetState) (k : Nat) (used : List String) (nm : String) (c : Int)
    (hinv : CInv st k used) (hfresh : nm ∉ used) :
    CInv (AppendNet (allocItem st nm c).1 (allocItem st nm c).2) (k + 1) (used ++ [nm]) ∧
    ((AppendNet (allocItem st nm c).1 (allocItem st nm c).2).heap st.nextPtr).m_netCode =
      (k : Int) ∧
    (∀ q, q ≠ st.nextPtr →
      (AppendNet (allocItem st nm c).1 (allocItem st nm c).2).heap q = st.heap q) := by
  obtain ⟨hkeys, hnames, hh0, hh1, hptr⟩ := hinv
  set a := allocItem st nm c with hadef
  have ha2 : a.2 = st.nextPtr := rfl
  have hhpa : a.1.heap a.2 = ⟨c, nm, true⟩ := by
    rw [hadef]
    simp [allocItem, updateHeap]
  have hhpq : ∀ q, q ≠ st.nextPtr → a.1.heap q = st.heap q := by
    intro q hq
    rw [hadef]
    simp [allocItem, updateHeap, hq]
  have hnm1 : a.1.m_netNames = st.m_netNames := rfl
  have hcd1 : a.1.m_netCodes = st.m_netCodes := rfl
  have hnh1 : a.1.m_newNetCode = st.m_newNetCode := rfl
  have hnp1 : a.1.nextPtr = st.nextPtr + 1 := rfl
  have hlen : a.1.m_netCodes.length = k := by
    have h1 := congrArg List.length hkeys
    simp [keysOf] at h1
    rw [hcd1]
    exact h1
  have hkiff : ∀ d : Int, containsKey a.1.m_netCodes d ↔ (0 ≤ d ∧ d < (k : Int)) := by
    intro d
    rw [hcd1]
    unfold containsKey
    rw [hkeys]
    simp only [List.mem_map, List.mem_range]
    constructor
    · rintro ⟨i, hi, rfl⟩
      omega
    · rintro ⟨hd0, hdk⟩
      exact ⟨d.toNat, by omega, by omega⟩
  have hlook : lookupKey a.1.m_netNames (a.1.heap a.2).m_netname = none := by
    rw [hhpa, hnm1]
    apply (lookupKey_eq_none _ _).2
    intro hc
    exact hfresh ((hnames nm).1 hc)
  have hknames : ∀ nm' : String,
      containsKey (nameMapInsert a.1.m_netNames nm a.2) nm' ↔ nm' ∈ used ++ [nm] := by
    intro nm'
    unfold nameMapInsert
    rw [hnm1]
    by_cases hc : containsKey st.m_netNames nm
    · exact absurd ((hnames nm).1 hc) hfresh
    · rw [if_neg hc]
      unfold containsKey keysOf
      rw [List.map_append]
      simp only [List.mem_append, List.map_cons, List.map_nil, List.mem_singleton]
      have h := hnames nm'
      unfold containsKey keysOf at h
      rw [h]
  have hkeyins : keysOf (mapInsert a.1.m_netCodes (k : Int) a.2) =
      (List.range (k + 1)).map (fun i : Nat => (i : Int)) := by
    have hall : ∀ k' ∈ keysOf a.1.m_netCodes, k' < (k : Int) := by
      intro k' hk'
      rcases (hkiff k').1 hk' with ⟨h0, h1⟩
      exact h1
    rw [mapInsert_append a.2 hall]
    unfold keysOf
    rw [List.map_append, List.range_succ, List.map_append]
    have h2 : List.map Prod.fst a.1.m_netCodes =
        List.map (fun i : Nat => (i : Int)) (List.range k) := by
      rw [hcd1]
      exact hkeys
    rw [h2]
    simp
  by_cases hcond : (a.1.heap a.2).m_netCode ≠ (a.1.m_netCodes.length : Int) ∨
      (a.1.heap a.2).m_netCode < 0
  · -- allocation branch: the scan returns exactly k
    obtain ⟨han, hac, hahint, had, haptr, hahp, hahq⟩ := AppendNet_alloc a.1 a.2 hlook hcond
    obtain ⟨hfree, hgt, hcov, -⟩ := getFreeNetCode_spec a.1
    have hr : (getFreeNetCode a.1).1 = (k : Int) := by
      rw [hnh1] at hgt hcov
      have hnotin : ¬ (0 ≤ (getFreeNetCode a.1).1 ∧ (getFreeNetCode a.1).1 < (k : Int)) :=
        fun hin => hfree ((hkiff _).2 hin)
      by_contra hne
      rcases lt_or_gt_of_ne hne with hlt | hgt2
      · exact hnotin ⟨by omega, hlt⟩
      · have hk := hcov (k : Int) (by omega) hgt2
        rcases (hkiff _).1 hk with ⟨-, habs⟩
        omega
    refine ⟨⟨?_, ?_, ?_, ?_, ?_⟩, ?_, ?_⟩
    · rw [hac, hr]
      exact hkeyins
    · intro nm'
      rw [han, hnm1, show (a.1.heap a.2).m_netname = nm from by rw [hhpa]]
      rw [show nameMapInsert st.m_netNames nm a.2 = nameMapInsert a.1.m_netNames nm a.2
        from rfl]
      exact hknames nm'
    · rw [hahint, hr]
      omega
    · rw [hahint, hr]
      push_cast
      omega
    · rw [haptr, hnp1, hptr]
    · rw [← ha2, hahp, hhpa, hr]
    · intro q hq
      by_cases hq2 : q = a.2
      · rw [ha2] at hq2
        exact absurd hq2 hq
      · rw [hahq q hq2]
        exact hhpq q (by rw [← ha2]; exact hq2)
  · -- kept-code branch: the proposed code is exactly k
    have hceq : (a.1.heap a.2).m_netCode = (k : Int) := by
      rw [not_or] at hcond
      have h1 := hcond.1
      rw [hlen] at h1
      omega
    obtain ⟨han, hac, hahint, had, haptr, hahp⟩ := AppendNet_keep a.1 a.2 hlook hcond
    refine ⟨⟨?_, ?_, ?_, ?_, ?_⟩, ?_, ?_⟩
    · rw [hac, hceq]
      exact hkeyins
    · intro nm'
      rw [han, hnm1, show (a.1.heap a.2).m_netname = nm from by rw [hhpa]]
      rw [show nameMapInsert st.m_netNames nm a.2 = nameMapInsert a.1.m_netNames nm a.2
        from rfl]
      exact hknames nm'
    · rw [hahint, hnh1]
      exact hh0
    · rw [hahint, hnh1]
      push_cast
      omega
    · rw [haptr, hnp1, hptr]
    · rw [← ha2, hahp]
      exact hceq
    · intro q hq
      rw [hahp]
      exact hhpq q hq

theorem runAppendList_spec (l : List (String × Int)) :
    ∀ (st : NetState) (k : Nat) (used : List String),
      CInv st k used →
      (∀ nm ∈ l.map Prod.fst, nm ∉ used) →
      (l.map Prod.fst).Nodup →
      CInv (runAppendList st l).1 (k + l.length) (used ++ l.map Prod.fst) ∧
      ((runAppendList st l).2.map
          (fun p => ((runAppendList st l).1.heap p).m_netCode) =
        (List.range' k l.length).map (fun i : Nat => (i : Int))) ∧
      (∀ q, q < st.nextPtr → (runAppendList st l).1.heap q = st.heap q) := by
  induction l with
  | nil =>
    intro st k used hinv hfresh hnd
    refine ⟨by simpa using hinv, by simp [runAppendList], fun q hq => rfl⟩
  | cons e t ih =>
    intro st k used hinv hfresh hnd
    obtain ⟨nm, c⟩ := e
    have hrw : runAppendList st ((nm, c) :: t) =
        ((runAppendList (AppendNet (allocItem st nm c).1 (allocItem st nm c).2) t).1,
         (allocItem st nm c).2 ::
           (runAppendList (AppendNet (allocItem st nm c).1 (allocItem st nm c).2) t).2) := rfl
    obtain ⟨hinv1, hcode1, hframe1⟩ :=
      append_step st k used nm c hinv (hfresh nm (by simp))
    have hptr0 : st.nextPtr = k := hinv.2.2.2.2
    have hptr1 : (AppendNet (allocItem st nm c).1 (allocItem st nm c).2).nextPtr = k + 1 :=
      hinv1.2.2.2.2
    rw [List.map_cons, List.nodup_cons] at hnd
    have hfresh1 : ∀ nm' ∈ t.map Prod.fst, nm' ∉ used ++ [nm] := by
      intro nm' hm
      simp only [List.mem_append, List.mem_singleton]
      rintro (h | h)
      · exact hfresh nm' (by simp [hm]) h
      · rw [h] at hm
        exact hnd.1 hm
    obtain ⟨hinv2, hcode2, hframe2⟩ :=
      ih (AppendNet (allocItem st nm c).1 (allocItem st nm c).2) (k + 1) (used ++ [nm])
        hinv1 hfresh1 hnd.2
    refine ⟨?_, ?_, ?_⟩
    · rw [hrw]
      have hl : k + 1 + t.length = k + (t.length + 1) := by omega
      have hu : used ++ [nm] ++ t.map Prod.fst = used ++ (nm :: t.map Prod.fst) := by
        simp
      rw [hl, hu] at hinv2
      simpa using hinv2
    · rw [hrw]
      simp only [List.map_cons, List.length_cons]
      have hhd : ((runAppendList (AppendNet (allocItem st nm c).1 (allocItem st nm c).2)
          t).1.heap (allocItem st nm c).2).m_netCode = (k : Int) := by
        have hfr := hframe2 (allocItem st nm c).2 (by rw [hptr1, show (allocItem st nm c).2 = st.nextPtr from rfl, hptr0]; omega)
        have hcode1a : ((AppendNet (allocItem st nm c).1 (allocItem st nm c).2).heap
            (allocItem st nm c).2).m_netCode = (k : Int) := hcode1
        rw [hfr]
        exact hcode1a
      rw [hhd, hcode2, List.range'_succ, List.map_cons]
    · intro q hq
      rw [hrw]
      have h1 := hframe2 q (by rw [hptr1]; omega)
      have h2 := hframe1 q (by omega)
      rw [h1, h2]

/-- C1: from a fresh registry (already holding the reserved code-0 record),
any sequence of appends whose names are pairwise distinct — and, the reserved
empty name being a name already in the registry, distinct from it too —
yields exactly the by-code keys 0..n-1 (n the total number of records), and
the records hold those codes in append order: the reserved record holds 0
and the i-th appended record holds code i. -/
theorem C1_append_codes_consecutive (l : List (String × Int))
    (hnd : ("" :: l.map Prod.fst).Nodup) :
    keysOf (runAppendList freshRegistry l).1.m_netCodes =
      (List.range (l.length + 1)).map (fun i : Nat => (i : Int)) ∧
    (0 :: (runAppendList freshRegistry l).2).map
        (fun p => ((runAppendList freshRegistry l).1.heap p).m_netCode) =
      (List.range (l.length + 1)).map (fun i : Nat => (i : Int)) := by
  rw [List.nodup_cons] at hnd
  have hinv0 : CInv freshRegistry 1 [""] := by
    refine ⟨by decide, ?_, by decide, by decide, by decide⟩
    intro nm
    have h1 : freshRegistry.m_netNames = [("", 0)] := by decide
    rw [h1]
    unfold containsKey keysOf
    simp
  have hfresh0 : ∀ nm ∈ l.map Prod.fst, nm ∉ ([""] : List String) := by
    intro nm hm
    simp only [List.mem_singleton]
    intro h
    rw [h] at hm
    exact hnd.1 hm
  obtain ⟨hinv, hcodes, hframe⟩ := runAppendList_spec l freshRegistry 1 [""] hinv0 hfresh0 hnd.2
  obtain ⟨hkeys, -, -, -, -⟩ := hinv
  constructor
  · rw [hkeys, Nat.add_comm 1 l.length]
  · rw [List.map_cons]
    have h0 : ((runAppendList freshRegistry l).1.heap 0).m_netCode = 0 := by
      have hfr : (runAppendList freshRegistry l).1.heap 0 = freshRegistry.heap 0 := by
        apply hframe
        decide
      rw [hfr]
      decide
    rw [h0, hcodes, List.range_eq_range', List.range'_succ]
    simp

/-- Witness for C1: appending GND (auto code) and VCC (ill-formed proposed
code 5) gives codes 0,1,2 to reserved/GND/VCC. -/
theorem C1_witness :
    (0 :: (runAppendList freshRegistry [("GND", -1), ("VCC", 5)]).2).map
        (fun p => ((runAppendList freshRegistry [("GND", -1), ("VCC", 5)]).1.heap p).m_netCode) =
      (List.range 3).map (fun i : Nat => (i : Int)) :=
  (C1_append_codes_consecutive [("GND", -1), ("VCC", 5)] (by decide)).2

/-! ### By-name insert lemmas and the prune loop -/

theorem mem_nameMapInsert {m : List (String × Nat)} {k : String} {v : Nat}
    {e : String × Nat} :
    e ∈ nameMapInsert m k v ↔ e ∈ m ∨ (¬ containsKey m k ∧ e = (k, v)) := by
  unfold nameMapInsert
  by_cases h : containsKey m k
  · simp [h]
  · simp [h]

theorem containsKey_nameMapInsert (m : List (String × Nat)) (k : String) (v : Nat)
    (k' : String) :
    containsKey (nameMapInsert m k v) k' ↔ k' = k ∨ containsKey m k' := by
  unfold nameMapInsert
  by_cases h : containsKey m k
  · rw [if_pos h]
    constructor
    · exact Or.inr
    · rintro (h' | h')
      · rw [h']
        exact h
      · exact h'
  · rw [if_neg h]
    unfold containsKey keysOf
    rw [List.map_append]
    simp [or_comm]

theorem keysOf_nameMapInsert_nodup {m : List (String × Nat)} (k : String) (v : Nat)
    (h : (keysOf m).Nodup) : (keysOf (nameMapInsert m k v)).Nodup := by
  unfold nameMapInsert
  by_cases hc : containsKey m k
  · rw [if_pos hc]
    exact h
  · rw [if_neg hc]
    unfold containsKey at hc
    unfold keysOf at *
    rw [List.map_append]
    simp [List.nodup_append, h, hc]

theorem pruneAux_spec (heap : Nat → NetItem) (hasSink : Bool) (l : List (Int × Nat)) :
    ∀ (nm0 : List (String × Nat)) (cd0 : List (Int × Nat)) (d0 : Bool) (ns0 : List Nat),
      (l.map Prod.fst).Nodup →
      (∀ e ∈ l, ¬ containsKey cd0 e.1) →
      List.Pairwise (fun e e' : Int × Nat =>
        (heap e.2).m_isCurrent = true → (heap e'.2).m_isCurrent = true →
        (heap e.2).m_netname ≠ (heap e'.2).m_netname) l →
      (∀ e ∈ l, (heap e.2).m_isCurrent = true →
        ¬ containsKey nm0 (heap e.2).m_netname) →
      List.Sorted (· < ·) (keysOf cd0) →
      (keysOf nm0).Nodup →
      (∀ e : Int × Nat,
        e ∈ (pruneAux heap hasSink l nm0 cd0 d0 ns0).2.1 ↔
          e ∈ cd0 ∨ (e ∈ l ∧ (heap e.2).m_isCurrent = true)) ∧
      (∀ e : String × Nat,
        e ∈ (pruneAux heap hasSink l nm0 cd0 d0 ns0).1 ↔
          e ∈ nm0 ∨ ∃ ep ∈ l, (heap ep.2).m_isCurrent = true ∧
            e = ((heap ep.2).m_netname, ep.2)) ∧
      ((pruneAux heap hasSink l nm0 cd0 d0 ns0).2.2.2 =
        ns0 ++ (if hasSink then
          (l.filter (fun e => !(heap e.2).m_isCurrent)).map Prod.snd else [])) ∧
      List.Sorted (· < ·) (keysOf (pruneAux heap hasSink l nm0 cd0 d0 ns0).2.1) ∧
      (keysOf (pruneAux heap hasSink l nm0 cd0 d0 ns0).1).Nodup := by
  induction l with
  | nil =>
    intro nm0 cd0 d0 ns0 h1 h2 h3 h4 h5 h6
    refine ⟨by simp [pruneAux], by simp [pruneAux], by simp [pruneAux], ?_, ?_⟩
    · simpa [pruneAux] using h5
    · simpa [pruneAux] using h6
  | cons e t ih =>
    intro nm0 cd0 d0 ns0 h1 h2 h3 h4 h5 h6
    obtain ⟨c, p⟩ := e
    rw [List.map_cons, List.nodup_cons] at h1
    rw [List.pairwise_cons] at h3
    by_cases hcur : (heap p).m_isCurrent = true
    · have hred : pruneAux heap hasSink ((c, p) :: t) nm0 cd0 d0 ns0 =
          pruneAux heap hasSink t (nameMapInsert nm0 (heap p).m_netname p)
            (mapInsert cd0 c p) d0 ns0 := by
        simp only [pruneAux, if_pos hcur]
      have hck : ¬ containsKey cd0 c := h2 (c, p) (List.mem_cons.2 (Or.inl rfl))
      have hnk : ¬ containsKey nm0 (heap p).m_netname :=
        h4 (c, p) (List.mem_cons.2 (Or.inl rfl)) hcur
      have h2a : ∀ e ∈ t, ¬ containsKey (mapInsert cd0 c p) e.1 := by
        intro e he hc
        rw [containsKey_mapInsert] at hc
        rcases hc with hc | hc
        · exact h1.1 (hc ▸ List.mem_map.2 ⟨e, he, rfl⟩)
        · exact h2 e (List.mem_cons.2 (Or.inr he)) hc
      have h4a : ∀ e ∈ t, (heap e.2).m_isCurrent = true →
          ¬ containsKey (nameMapInsert nm0 (heap p).m_netname p) (heap e.2).m_netname := by
        intro e he hec hc
        rw [containsKey_nameMapInsert] at hc
        rcases hc with hc | hc
        · exact (h3.1 e he hcur hec) hc.symm
        · exact h4 e (List.mem_cons.2 (Or.inr he)) hec hc
      obtain ⟨ihc, ihn, ihns, ihs, ihnd⟩ := ih (nameMapInsert nm0 (heap p).m_netname p)
        (mapInsert cd0 c p) d0 ns0 h1.2 h2a h3.2 h4a (sorted_mapInsert c p h5)
        (keysOf_nameMapInsert_nodup (heap p).m_netname p h6)
      rw [hred]
      refine ⟨?_, ?_, ?_, ihs, ihnd⟩
      · intro e
        rw [ihc e]
        constructor
        · rintro (h | ⟨ht, hc⟩)
          · rcases mem_of_mem_mapInsert h with h' | h'
            · exact Or.inl h'
            · exact Or.inr ⟨List.mem_cons.2 (Or.inl h'), by rw [h']; exact hcur⟩
          · exact Or.inr ⟨List.mem_cons.2 (Or.inr ht), hc⟩
        · rintro (h | ⟨ht, hc⟩)
          · exact Or.inl (mem_mapInsert_of_mem c p h)
          · rcases List.mem_cons.1 ht with h' | h'
            · exact Or.inl (h' ▸ self_mem_mapInsert p hck)
            · exact Or.inr ⟨h', hc⟩
      · intro e
        rw [ihn e]
        constructor
        · rintro (h | ⟨ep, hep, hc, he⟩)
          · rcases mem_nameMapInsert.1 h with h' | h'
            · exact Or.inl h'
            · exact Or.inr ⟨(c, p), List.mem_cons.2 (Or.inl rfl), hcur, h'.2⟩
          · exact Or.inr ⟨ep, List.mem_cons.2 (Or.inr hep), hc, he⟩
        · rintro (h | ⟨ep, hep, hc, he⟩)
          · exact Or.inl (mem_nameMapInsert.2 (Or.inl h))
          · rcases List.mem_cons.1 hep with h' | h'
            · subst h'
              exact Or.inl (mem_nameMapInsert.2 (Or.inr ⟨hnk, he⟩))
            · exact Or.inr ⟨ep, h', hc, he⟩
      · rw [ihns]
        have hf : ((c, p) :: t).filter (fun e => !(heap e.2).m_isCurrent) =
            t.filter (fun e => !(heap e.2).m_isCurrent) := by
          simp [List.filter_cons, hcur]
        rw [hf]
    · have hcurf : (heap p).m_isCurrent = false := by
        revert hcur
        cases (heap p).m_isCurrent <;> simp
      have hred : pruneAux heap hasSink ((c, p) :: t) nm0 cd0 d0 ns0 =
          pruneAux heap hasSink t nm0 cd0 true
            (ns0 ++ if hasSink then [p] else []) := by
        simp only [pruneAux, if_neg hcur]
      have h2a : ∀ e ∈ t, ¬ containsKey cd0 e.1 :=
        fun e he => h2 e (List.mem_cons.2 (Or.inr he))
      have h4a : ∀ e ∈ t, (heap e.2).m_isCurrent = true →
          ¬ containsKey nm0 (heap e.2).m_netname :=
        fun e he => h4 e (List.mem_cons.2 (Or.inr he))
      obtain ⟨ihc, ihn, ihns, ihs, ihnd⟩ := ih nm0 cd0 true
        (ns0 ++ if hasSink then [p] else []) h1.2 h2a h3.2 h4a h5 h6
      rw [hred]
      refine ⟨?_, ?_, ?_, ihs, ihnd⟩
      · intro e
        rw [ihc e]
        constructor
        · rintro (h | ⟨ht, hc⟩)
          · exact Or.inl h
          · exact Or.inr ⟨List.mem_cons.2 (Or.inr ht), hc⟩
        · rintro (h | ⟨ht, hc⟩)
          · exact Or.inl h
          · rcases List.mem_cons.1 ht with h' | h'
            · rw [h'] at hc
              rw [hc] at hcurf
              simp at hcurf
            · exact Or.inr ⟨h', hc⟩
      · intro e
        rw [ihn e]
        constructor
        · rintro (h | ⟨ep, hep, hc, he⟩)
          · exact Or.inl h
          · exact Or.inr ⟨ep, List.mem_cons.2 (Or.inr hep), hc, he⟩
        · rintro (h | ⟨ep, hep, hc, he⟩)
          · exact Or.inl h
          · rcases List.mem_cons.1 hep with h' | h'
            · subst h'
              rw [hc] at hcurf
              simp at hcurf
            · exact Or.inr ⟨ep, h', hc, he⟩
      · rw [ihns]
        have hf : ((c, p) :: t).filter (fun e => !(heap e.2).m_isCurrent) =
            (c, p) :: t.filter (fun e => !(heap e.2).m_isCurrent) := by
          simp [List.filter_cons, hcurf]
        rw [hf]
        cases hasSink <;> simp

/-! ### Claim C3 -/

/-- C3: on a consistent registry (sorted/unique index keys, each record
indexed under its own code and name, both indices reaching the same set of
records — the agreement the data model requires of every state),
`RemoveUnusedNets` with a commit sink partitions the records exactly by
`isCurrent`: a record stays reachable through the rebuilt by-code index iff
it was by-code reachable and current, the rebuilt by-name and by-code
indices reach exactly the same records, and the sink receives each dropped
record exactly once (and nothing else). -/
theorem C3_prune_partitions (st : NetState)
    (hcs : List.Sorted (· < ·) (keysOf st.m_netCodes))
    (hnnd : (keysOf st.m_netNames).Nodup)
    (hcfield : ∀ e ∈ st.m_netCodes, (st.heap e.2).m_netCode = e.1)
    (hnfield : ∀ e ∈ st.m_netNames, (st.heap e.2).m_netname = e.1)
    (hv1 : ∀ p ∈ valuesOf st.m_netCodes, p ∈ valuesOf st.m_netNames) :
    (∀ p : Nat, p ∈ valuesOf (RemoveUnusedNets st true).1.m_netCodes ↔
      (p ∈ valuesOf st.m_netCodes ∧ (st.heap p).m_isCurrent = true)) ∧
    (∀ p : Nat, p ∈ valuesOf (RemoveUnusedNets st true).1.m_netNames ↔
      p ∈ valuesOf (RemoveUnusedNets st true).1.m_netCodes) ∧
    (∀ p : Nat, p ∈ valuesOf st.m_netCodes → (st.heap p).m_isCurrent = false →
      ((RemoveUnusedNets st true).2.count p = 1)) ∧
    (∀ p : Nat, ¬ (p ∈ valuesOf st.m_netCodes ∧ (st.heap p).m_isCurrent = false) →
      ((RemoveUnusedNets st true).2.count p = 0)) := by
  have hknd : (keysOf st.m_netCodes).Nodup := hcs.nodup
  have hpw0 : List.Pairwise (fun e e' : Int × Nat => e.1 ≠ e'.1) st.m_netCodes := by
    unfold keysOf at hknd
    exact List.pairwise_map.1 hknd
  have hpw : List.Pairwise (fun e e' : Int × Nat =>
      (st.heap e.2).m_isCurrent = true → (st.heap e'.2).m_isCurrent = true →
      (st.heap e.2).m_netname ≠ (st.heap e'.2).m_netname) st.m_netCodes := by
    refine hpw0.imp_of_mem ?_
    intro e e' he he' hne _ _ hnm
    rcases mem_valuesOf.1 (hv1 e.2 (mem_valuesOf.2 ⟨e, he, rfl⟩)) with ⟨en, hen, hen2⟩
    rcases mem_valuesOf.1 (hv1 e'.2 (mem_valuesOf.2 ⟨e', he', rfl⟩)) with ⟨en', hen', hen2'⟩
    have h1 : en.1 = (st.heap e.2).m_netname := by
      rw [← hnfield en hen, hen2]
    have h2 : en'.1 = (st.heap e'.2).m_netname := by
      rw [← hnfield en' hen', hen2']
    have heq : en = en' := entry_unique_fst hnnd hen hen' (by rw [h1, h2, hnm])
    have hv : e.2 = e'.2 := by rw [← hen2, ← hen2', heq]
    exact hne (by rw [← hcfield e he, ← hcfield e' he', hv])
  have hvnodup : (valuesOf st.m_netCodes).Nodup := by
    unfold valuesOf
    refine List.pairwise_map.2 (hpw0.imp_of_mem ?_)
    intro e e' he he' hne hv
    exact hne (by rw [← hcfield e he, ← hcfield e' he', hv])
  obtain ⟨hsc, hsn, hsns, -, -⟩ := pruneAux_spec st.heap true st.m_netCodes
    [] [] st.m_DisplayNetnamesDirty [] hknd
    (fun e _ => containsKey_nil e.1) hpw
    (fun e _ _ => containsKey_nil (st.heap e.2).m_netname)
    (by simp [keysOf]) (by simp [keysOf])
  have hrc : (RemoveUnusedNets st true).1.m_netCodes =
      (pruneAux st.heap true st.m_netCodes [] [] st.m_DisplayNetnamesDirty []).2.1 := rfl
  have hrn : (RemoveUnusedNets st true).1.m_netNames =
      (pruneAux st.heap true st.m_netCodes [] [] st.m_DisplayNetnamesDirty []).1 := rfl
  have hrns : (RemoveUnusedNets st true).2 =
      (st.m_netCodes.filter (fun e => !(st.heap e.2).m_isCurrent)).map Prod.snd := by
    rw [show (RemoveUnusedNets st true).2 =
      (pruneAux st.heap true st.m_netCodes [] [] st.m_DisplayNetnamesDirty []).2.2.2
      from rfl, hsns]
    simp
  have hmem1 : ∀ p : Nat, p ∈ valuesOf (RemoveUnusedNets st true).1.m_netCodes ↔
      (p ∈ valuesOf st.m_netCodes ∧ (st.heap p).m_isCurrent = true) := by
    intro p
    rw [hrc]
    constructor
    · intro h
      rcases mem_valuesOf.1 h with ⟨e, he, hep⟩
      rcases (hsc e).1 he with h' | ⟨hec, hcur⟩
      · simp at h'
      · exact ⟨mem_valuesOf.2 ⟨e, hec, hep⟩, by rw [← hep]; exact hcur⟩
    · rintro ⟨hmem, hcur⟩
      rcases mem_valuesOf.1 hmem with ⟨e, he, hep⟩
      exact mem_valuesOf.2 ⟨e, (hsc e).2 (Or.inr ⟨he, by rw [hep]; exact hcur⟩), hep⟩
  have hnsmem : ∀ p : Nat, p ∈ (RemoveUnusedNets st true).2 ↔
      (p ∈ valuesOf st.m_netCodes ∧ (st.heap p).m_isCurrent = false) := by
    intro p
    rw [hrns]
    simp only [List.mem_map, List.mem_filter]
    constructor
    · rintro ⟨e, ⟨he, hcur⟩, hep⟩
      refine ⟨mem_valuesOf.2 ⟨e, he, hep⟩, ?_⟩
      rw [← hep]
      revert hcur
      cases (st.heap e.2).m_isCurrent <;> simp
    · rintro ⟨hmem, hcur⟩
      rcases mem_valuesOf.1 hmem with ⟨e, he, hep⟩
      refine ⟨e, ⟨he, ?_⟩, hep⟩
      rw [hep, hcur]
      rfl
  refine ⟨hmem1, ?_, ?_, ?_⟩
  · intro p
    rw [hrn, hmem1 p]
    constructor
    · intro h
      rcases mem_valuesOf.1 h with ⟨en, hen, hen2⟩
      rcases (hsn en).1 hen with h' | ⟨ep, hep, hcur, he⟩
      · simp at h'
      · refine ⟨mem_valuesOf.2 ⟨ep, hep, ?_⟩, ?_⟩
        · rw [← hen2, he]
        · rw [← hen2, he]
          exact hcur
    · rintro ⟨hmem, hcur⟩
      rcases mem_valuesOf.1 hmem with ⟨e, he, hep⟩
      refine mem_valuesOf.2 ⟨((st.heap e.2).m_netname, e.2),
        (hsn _).2 (Or.inr ⟨e, he, by rw [hep]; exact hcur, rfl⟩), hep⟩
  · intro p hmem hcur
    have hnd : (RemoveUnusedNets st true).2.Nodup := by
      rw [hrns]
      refine List.Nodup.sublist (List.Sublist.map Prod.snd (List.filter_sublist _)) ?_
      exact hvnodup
    exact List.count_eq_one_of_mem hnd ((hnsmem p).2 ⟨hmem, hcur⟩)
  · intro p hnot
    rw [List.count_eq_zero]
    intro hc
    exact hnot ((hnsmem p).1 hc)

/-- The registry of `wit6st` with the "GND" record (pointer 1) marked
no longer current, used to witness C3. -/
def wit3st : NetState :=
  { wit6st with heap := updateHeap wit6st.heap 1 { wit6st.heap 1 with m_isCurrent := false } }

/-- Witness for C3: pruning `wit3st` keeps the reserved and "B" records and
reports the non-current "GND" record (pointer 1) exactly once. -/
theorem C3_witness :
    (1 ∈ valuesOf wit3st.m_netCodes ∧ (wit3st.heap 1).m_isCurrent = false) ∧
    (RemoveUnusedNets wit3st true).2.count 1 = 1 ∧
    ¬ (1 ∈ valuesOf (RemoveUnusedNets wit3st true).1.m_netCodes) :=
  ⟨⟨by decide, by decide⟩,
   (C3_prune_partitions wit3st (by decide) (by decide) (by decide) (by decide)
      (by decide)).2.2.1 1 (by decide) (by decide),
   fun hc => by
     have h := ((C3_prune_partitions wit3st (by decide) (by decide) (by decide) (by decide)
        (by decide)).1 1).1 hc
     exact absurd h.2 (by decide)⟩

/-! ### Claim C7: the registry state machine -/

/-- The registry operations of claim C7: appending a freshly constructed
record, removing a record, pruning, and — the way records become
non-current between quiescent points — flipping a record's liveness flag. -/
inductive RegOp where
  | append (netname : String) (netCode : Int)
  | removeOp (p : Nat)
  | prune
  | setCurrent (p : Nat) (b : Bool)

/-- One registry operation. `append` allocates a fresh record
(`new NETINFO_ITEM`) and hands it to `AppendNet`; `removeOp` is
`RemoveNet`; `prune` is `RemoveUnusedNets` (sink irrelevant to the state);
`setCurrent` is `NETINFO_ITEM::SetIsCurrent` on an existing record. -/
def applyOp (st : NetState) : RegOp → NetState
  | .append nm c => AppendNet (allocItem st nm c).1 (allocItem st nm c).2
  | .removeOp p => RemoveNet st p
  | .prune => (RemoveUnusedNets st true).1
  | .setCurrent p b =>
      { st with heap := updateHeap st.heap p { st.heap p with m_isCurrent := b } }

/-- The side conditions of claim C7: `remove` is only called on records
other than the reserved code-0 record, and the reserved record is never
marked non-current. -/
def legalOp (st : NetState) : RegOp → Bool
  | .append _ _ => true
  | .removeOp p => st.m_netCodes.all (fun e => !(e.1 == 0) || !(e.2 == p))
  | .prune => true
  | .setCurrent p b => b || st.m_netCodes.all (fun e => !(e.1 == 0) || !(e.2 == p))

def legalTrace : NetState → List RegOp → Bool
  | _, [] => true
  | st, op :: t => legalOp st op && legalTrace (applyOp st op) t

def runOps : NetState → List RegOp → NetState
  | st, [] => st
  | st, op :: t => runOps (applyOp st op) t

/-- The inductive well-formedness invariant behind C7: sorted unique by-code
keys, unique by-name keys, records indexed under their own code and name,
by-code values name-reachable, a current reserved record at code 0 with the
empty name, any name-reachable code-0 record being the code-0 index entry,
and all reachable pointers previously allocated. -/
def WF7 (st : NetState) : Prop :=
  List.Sorted (· < ·) (keysOf st.m_netCodes) ∧
  (keysOf st.m_netNames).Nodup ∧
  (∀ e ∈ st.m_netCodes, (st.heap e.2).m_netCode = e.1) ∧
  (∀ e ∈ st.m_netNames, (st.heap e.2).m_netname = e.1) ∧
  (∀ p ∈ valuesOf st.m_netCodes, p ∈ valuesOf st.m_netNames) ∧
  (∃ p0, (0, p0) ∈ st.m_netCodes ∧ (st.heap p0).m_netname = "" ∧
    (st.heap p0).m_isCurrent = true) ∧
  (∀ p ∈ valuesOf st.m_netNames, (st.heap p).m_netCode = 0 → (0, p) ∈ st.m_netCodes) ∧
  (∀ p ∈ valuesOf st.m_netNames, p < st.nextPtr)

theorem WF7_fresh : WF7 freshRegistry := by
  refine ⟨by decide, by decide, by decide, by decide, by decide,
    ⟨0, by decide, by decide, by decide⟩, by decide, by decide⟩

theorem WF7_setCurrent (st : NetState) (p : Nat) (b : Bool) (hwf : WF7 st)
    (hl : legalOp st (RegOp.setCurrent p b) = true) :
    WF7 (applyOp st (RegOp.setCurrent p b)) := by
  obtain ⟨h1, h2, h3, h4, h5, ⟨p0, hp0c, hp0n, hp0cur⟩, h7, h8⟩ := hwf
  have hcode : ∀ q, ((applyOp st (RegOp.setCurrent p b)).heap q).m_netCode =
      (st.heap q).m_netCode := by
    intro q
    show ((updateHeap st.heap p { st.heap p with m_isCurrent := b }) q).m_netCode = _
    unfold updateHeap
    by_cases hq : q = p <;> simp [hq]
  have hname : ∀ q, ((applyOp st (RegOp.setCurrent p b)).heap q).m_netname =
      (st.heap q).m_netname := by
    intro q
    show ((updateHeap st.heap p { st.heap p with m_isCurrent := b }) q).m_netname = _
    unfold updateHeap
    by_cases hq : q = p <;> simp [hq]
  refine ⟨h1, h2, ?_, ?_, h5, ⟨p0, hp0c, ?_, ?_⟩, ?_, h8⟩
  · intro e he
    rw [hcode]
    exact h3 e he
  · intro e he
    rw [hname]
    exact h4 e he
  · rw [hname]
    exact hp0n
  · show ((updateHeap st.heap p { st.heap p with m_isCurrent := b }) p0).m_isCurrent = true
    unfold updateHeap
    by_cases hq : p0 = p
    · rw [if_pos hq]
      cases hb : b
      · exfalso
        rw [hb] at hl
        simp only [legalOp, Bool.false_or] at hl
        have h := List.all_eq_true.1 hl (0, p0) hp0c
        simp at h
        exact h (hq ▸ rfl)
      · rfl
    · rw [if_neg hq]
      exact hp0cur
  · intro q hq hc
    rw [hcode] at hc
    exact h7 q hq hc

theorem WF7_remove (st : NetState) (p : Nat) (hwf : WF7 st)
    (hl : legalOp st (RegOp.removeOp p) = true) :
    WF7 (applyOp st (RegOp.removeOp p)) := by
  obtain ⟨h1, h2, h3, h4, h5, ⟨p0, hp0c, hp0n, hp0cur⟩, h7, h8⟩ := hwf
  have hall : ∀ e ∈ st.m_netCodes, e.1 = 0 → e.2 ≠ p := by
    simp only [legalOp] at hl
    intro e he h0
    have h := List.all_eq_true.1 hl e he
    simp [h0] at h
    exact h
  have hvnd : (valuesOf st.m_netCodes).Nodup := by
    unfold valuesOf
    refine List.pairwise_map.2 ?_
    have hknd := h1.nodup
    unfold keysOf at hknd
    refine (List.pairwise_map.1 hknd).imp_of_mem ?_
    intro e e' he he' hne heq
    exact hne (by rw [← h3 e he, ← h3 e' he', heq])
  have hfields : (RemoveNet st p).m_netCodes = eraseFirstValue st.m_netCodes p ∧
      (RemoveNet st p).m_netNames = eraseFirstValue st.m_netNames p ∧
      (RemoveNet st p).heap = st.heap ∧ (RemoveNet st p).nextPtr = st.nextPtr := by
    cases hany : st.m_netCodes.any (fun e => e.2 == p) <;>
      (unfold RemoveNet; rw [hany]; exact ⟨rfl, rfl, rfl, rfl⟩)
  obtain ⟨hfc, hfn, hfh, hfp⟩ := hfields
  show WF7 (RemoveNet st p)
  have hnsub : ∀ q ∈ valuesOf (eraseFirstValue st.m_netNames p),
      q ∈ valuesOf st.m_netNames := by
    intro q hq
    rcases mem_valuesOf.1 hq with ⟨e, he, hep⟩
    exact mem_valuesOf.2 ⟨e, (eraseFirstValue_sublist _ _).subset he, hep⟩
  refine ⟨?_, ?_, ?_, ?_, ?_, ⟨p0, ?_, ?_, ?_⟩, ?_, ?_⟩
  · rw [hfc]
    exact List.Pairwise.sublist (List.Sublist.map Prod.fst (eraseFirstValue_sublist _ _)) h1
  · rw [hfn]
    exact List.Nodup.sublist (List.Sublist.map Prod.fst (eraseFirstValue_sublist _ _)) h2
  · rw [hfc, hfh]
    intro e he
    exact h3 e ((eraseFirstValue_sublist _ _).subset he)
  · rw [hfn, hfh]
    intro e he
    exact h4 e ((eraseFirstValue_sublist _ _).subset he)
  · rw [hfc, hfn]
    intro q hq
    rcases mem_valuesOf.1 hq with ⟨e, he, hep⟩
    have hel : e ∈ st.m_netCodes := (eraseFirstValue_sublist _ _).subset he
    by_cases hpp : q = p
    · exfalso
      exact value_not_mem_eraseFirstValue hvnd (hpp ▸ hq)
    · have hmem := h5 q (mem_valuesOf.2 ⟨e, hel, hep⟩)
      rcases mem_valuesOf.1 hmem with ⟨en, hen, hen2⟩
      exact mem_valuesOf.2 ⟨en, mem_eraseFirstValue_of_ne hen (by rw [hen2]; exact hpp), hen2⟩
  · rw [hfc]
    exact mem_eraseFirstValue_of_ne hp0c (hall (0, p0) hp0c rfl)
  · rw [hfh]
    exact hp0n
  · rw [hfh]
    exact hp0cur
  · rw [hfn, hfc, hfh]
    intro q hq hc
    have hmem := h7 q (hnsub q hq) hc
    exact mem_eraseFirstValue_of_ne hmem (hall (0, q) hmem rfl)
  · rw [hfn, hfp]
    intro q hq
    exact h8 q (hnsub q hq)

theorem wf_pairwise_names (st : NetState)
    (hknd : (keysOf st.m_netCodes).Nodup)
    (hnnd : (keysOf st.m_netNames).Nodup)
    (hcfield : ∀ e ∈ st.m_netCodes, (st.heap e.2).m_netCode = e.1)
    (hnfield : ∀ e ∈ st.m_netNames, (st.heap e.2).m_netname = e.1)
    (hv1 : ∀ p ∈ valuesOf st.m_netCodes, p ∈ valuesOf st.m_netNames) :
    List.Pairwise (fun e e' : Int × Nat =>
      (st.heap e.2).m_isCurrent = true → (st.heap e'.2).m_isCurrent = true →
      (st.heap e.2).m_netname ≠ (st.heap e'.2).m_netname) st.m_netCodes := by
  have hpw0 : List.Pairwise (fun e e' : Int × Nat => e.1 ≠ e'.1) st.m_netCodes := by
    unfold keysOf at hknd
    exact List.pairwise_map.1 hknd
  refine hpw0.imp_of_mem ?_
  intro e e' he he' hne _ _ hnm
  rcases mem_valuesOf.1 (hv1 e.2 (mem_valuesOf.2 ⟨e, he, rfl⟩)) with ⟨en, hen, hen2⟩
  rcases mem_valuesOf.1 (hv1 e'.2 (mem_valuesOf.2 ⟨e', he', rfl⟩)) with ⟨en', hen', hen2'⟩
  have hk1 : en.1 = (st.heap e.2).m_netname := by
    rw [← hnfield en hen, hen2]
  have hk2 : en'.1 = (st.heap e'.2).m_netname := by
    rw [← hnfield en' hen', hen2']
  have heq : en = en' := entry_unique_fst hnnd hen hen' (by rw [hk1, hk2, hnm])
  have hv : e.2 = e'.2 := by rw [← hen2, ← hen2', heq]
  exact hne (by rw [← hcfield e he, ← hcfield e' he', hv])

theorem WF7_prune (st : NetState) (hwf : WF7 st) :
    WF7 (applyOp st RegOp.prune) := by
  obtain ⟨h1, h2, h3, h4, h5, ⟨p0, hp0c, hp0n, hp0cur⟩, h7, h8⟩ := hwf
  have hpw := wf_pairwise_names st h1.nodup h2 h3 h4 h5
  obtain ⟨hsc, hsn, -, hss, hsnd⟩ := pruneAux_spec st.heap true st.m_netCodes
    [] [] st.m_DisplayNetnamesDirty [] h1.nodup
    (fun e _ => containsKey_nil e.1) hpw
    (fun e _ _ => containsKey_nil (st.heap e.2).m_netname)
    (by simp [keysOf]) (by simp [keysOf])
  have hrc : (applyOp st RegOp.prune).m_netCodes =
      (pruneAux st.heap true st.m_netCodes [] [] st.m_DisplayNetnamesDirty []).2.1 := rfl
  have hrn : (applyOp st RegOp.prune).m_netNames =
      (pruneAux st.heap true st.m_netCodes [] [] st.m_DisplayNetnamesDirty []).1 := rfl
  have hrh : (applyOp st RegOp.prune).heap = st.heap := rfl
  have hrp : (applyOp st RegOp.prune).nextPtr = st.nextPtr := rfl
  have hvn : ∀ q ∈ valuesOf (applyOp st RegOp.prune).m_netNames,
      q ∈ valuesOf st.m_netCodes ∧ (st.heap q).m_isCurrent = true := by
    intro q hq
    rw [hrn] at hq
    rcases mem_valuesOf.1 hq with ⟨en, hen, hen2⟩
    rcases (hsn en).1 hen with h' | ⟨ep, hep, hc, he⟩
    · simp at h'
    · have h2' : en.2 = ep.2 := by rw [he]
      refine ⟨mem_valuesOf.2 ⟨ep, hep, by rw [← h2', hen2]⟩, ?_⟩
      rw [← hen2, h2']
      exact hc
  refine ⟨?_, ?_, ?_, ?_, ?_, ⟨p0, ?_, ?_, ?_⟩, ?_, ?_⟩
  · rw [hrc]
    exact hss
  · rw [hrn]
    exact hsnd
  · rw [hrc, hrh]
    intro e he
    rcases (hsc e).1 he with h' | ⟨hec, -⟩
    · simp at h'
    · exact h3 e hec
  · rw [hrn, hrh]
    intro e he
    rcases (hsn e).1 he with h' | ⟨ep, hep, hc, he'⟩
    · simp at h'
    · rw [he']
  · rw [hrc, hrn]
    intro q hq
    rcases mem_valuesOf.1 hq with ⟨e, he, hep⟩
    rcases (hsc e).1 he with h' | ⟨hec, hcur⟩
    · simp at h'
    · exact mem_valuesOf.2 ⟨((st.heap e.2).m_netname, e.2),
        (hsn _).2 (Or.inr ⟨e, hec, hcur, rfl⟩), hep⟩
  · rw [hrc]
    exact (hsc (0, p0)).2 (Or.inr ⟨hp0c, hp0cur⟩)
  · rw [hrh]
    exact hp0n
  · rw [hrh]
    exact hp0cur
  · intro q hq hc
    rw [hrh] at hc
    obtain ⟨hqv, hqc⟩ := hvn q hq
    have hmem := h7 q (h5 q hqv) hc
    rw [hrc]
    exact (hsc (0, q)).2 (Or.inr ⟨hmem, hqc⟩)
  · intro q hq
    rw [hrp]
    exact h8 q (h5 q (hvn q hq).1)

theorem WF7_insert (st st2 : NetState) (p : Nat) (code2 : Int) (nm : String)
    (hwf : WF7 st)
    (hnm : ¬ containsKey st.m_netNames nm)
    (hpos : 1 ≤ code2)
    (hpf : st.nextPtr ≤ p)
    (hc2 : st2.m_netCodes = mapInsert st.m_netCodes code2 p)
    (hn2 : st2.m_netNames = nameMapInsert st.m_netNames nm p)
    (hh2p : st2.heap p = ⟨code2, nm, true⟩)
    (hh2q : ∀ q, q ≠ p → st2.heap q = st.heap q)
    (hnp2 : p < st2.nextPtr ∧ st.nextPtr ≤ st2.nextPtr) :
    WF7 st2 := by
  obtain ⟨h1, h2, h3, h4, h5, ⟨p0, hp0c, hp0n, hp0cur⟩, h7, h8⟩ := hwf
  have hnold : ∀ q ∈ valuesOf st.m_netNames, q ≠ p := by
    intro q hq
    have := h8 q hq
    omega
  have hcold : ∀ q ∈ valuesOf st.m_netCodes, q ≠ p := fun q hq => hnold q (h5 q hq)
  have hp0ne : p0 ≠ p := hcold p0 (mem_valuesOf.2 ⟨(0, p0), hp0c, rfl⟩)
  refine ⟨?_, ?_, ?_, ?_, ?_, ⟨p0, ?_, ?_, ?_⟩, ?_, ?_⟩
  · rw [hc2]
    exact sorted_mapInsert code2 p h1
  · rw [hn2]
    exact keysOf_nameMapInsert_nodup nm p h2
  · rw [hc2]
    intro e he
    rcases mem_of_mem_mapInsert he with h' | h'
    · rw [hh2q e.2 (hcold e.2 (mem_valuesOf.2 ⟨e, h', rfl⟩))]
      exact h3 e h'
    · rw [h', hh2p]
  · rw [hn2]
    intro e he
    rcases mem_nameMapInsert.1 he with h' | h'
    · rw [hh2q e.2 (hnold e.2 (mem_valuesOf.2 ⟨e, h', rfl⟩))]
      exact h4 e h'
    · rw [h'.2, hh2p]
  · rw [hc2, hn2]
    intro q hq
    rcases mem_valuesOf.1 hq with ⟨e, he, hep⟩
    rcases mem_of_mem_mapInsert he with h' | h'
    · have := h5 q (mem_valuesOf.2 ⟨e, h', hep⟩)
      rcases mem_valuesOf.1 this with ⟨en, hen, hen2⟩
      exact mem_valuesOf.2 ⟨en, mem_nameMapInsert.2 (Or.inl hen), hen2⟩
    · refine mem_valuesOf.2 ⟨(nm, p), mem_nameMapInsert.2 (Or.inr ⟨hnm, rfl⟩), ?_⟩
      rw [← hep, h']
  · rw [hc2]
    exact mem_mapInsert_of_mem code2 p hp0c
  · rw [hh2q p0 hp0ne]
    exact hp0n
  · rw [hh2q p0 hp0ne]
    exact hp0cur
  · rw [hn2, hc2]
    intro q hq hc
    rcases mem_valuesOf.1 hq with ⟨en, hen, hen2⟩
    rcases mem_nameMapInsert.1 hen with h' | h'
    · have hqne : q ≠ p := by
        rw [← hen2]
        exact hnold en.2 (mem_valuesOf.2 ⟨en, h', rfl⟩)
      rw [hh2q q hqne] at hc
      exact mem_mapInsert_of_mem code2 p
        (h7 q (mem_valuesOf.2 ⟨en, h', hen2⟩) hc)
    · exfalso
      have hqp : q = p := by
        rw [← hen2, h'.2]
      rw [hqp, hh2p] at hc
      simp at hc
      omega
  · rw [hn2]
    intro q hq
    rcases mem_valuesOf.1 hq with ⟨en, hen, hen2⟩
    rcases mem_nameMapInsert.1 hen with h' | h'
    · have := h8 q (mem_valuesOf.2 ⟨en, h', hen2⟩)
      omega
    · have hqp : q = p := by
        rw [← hen2, h'.2]
      omega

theorem WF7_append (st : NetState) (nm : String) (c : Int) (hwf : WF7 st) :
    WF7 (applyOp st (RegOp.append nm c)) := by
  obtain ⟨h1, h2, h3, h4, h5, ⟨p0, hp0c, hp0n, hp0cur⟩, h7, h8⟩ := hwf
  have hstA2 : (allocItem st nm c).2 = st.nextPtr := rfl
  have hAheapP : (allocItem st nm c).1.heap st.nextPtr = ⟨c, nm, true⟩ := by
    show updateHeap st.heap st.nextPtr ⟨c, nm, true⟩ st.nextPtr = _
    unfold updateHeap
    simp
  have hAheapQ : ∀ q, q ≠ st.nextPtr → (allocItem st nm c).1.heap q = st.heap q := by
    intro q hq
    show updateHeap st.heap st.nextPtr ⟨c, nm, true⟩ q = _
    unfold updateHeap
    simp [hq]
  have hnold : ∀ q ∈ valuesOf st.m_netNames, q ≠ st.nextPtr := by
    intro q hq
    have := h8 q hq
    omega
  have hcold : ∀ q ∈ valuesOf st.m_netCodes, q ≠ st.nextPtr :=
    fun q hq => hnold q (h5 q hq)
  have happly : applyOp st (RegOp.append nm c) =
      AppendNet (allocItem st nm c).1 (allocItem st nm c).2 := rfl
  cases hlk : lookupKey (allocItem st nm c).1.m_netNames
      ((allocItem st nm c).1.heap (allocItem st nm c).2).m_netname with
  | some q =>
    obtain ⟨han, hac, -, -, hap, -, hahq⟩ := AppendNet_merge _ _ q hlk
    have hheap : ∀ q', q' ≠ st.nextPtr →
        (AppendNet (allocItem st nm c).1 (allocItem st nm c).2).heap q' = st.heap q' := by
      intro q' hq'
      rw [hahq q' hq']
      exact hAheapQ q' hq'
    have hanS : (AppendNet (allocItem st nm c).1 (allocItem st nm c).2).m_netNames =
        st.m_netNames := han
    have hacS : (AppendNet (allocItem st nm c).1 (allocItem st nm c).2).m_netCodes =
        st.m_netCodes := hac
    have hapS : (AppendNet (allocItem st nm c).1 (allocItem st nm c).2).nextPtr =
        st.nextPtr + 1 := hap
    rw [happly]
    refine ⟨?_, ?_, ?_, ?_, ?_, ⟨p0, ?_, ?_, ?_⟩, ?_, ?_⟩
    · rw [hacS]
      exact h1
    · rw [hanS]
      exact h2
    · rw [hacS]
      intro e he
      rw [hheap e.2 (hcold e.2 (mem_valuesOf.2 ⟨e, he, rfl⟩))]
      exact h3 e he
    · rw [hanS]
      intro e he
      rw [hheap e.2 (hnold e.2 (mem_valuesOf.2 ⟨e, he, rfl⟩))]
      exact h4 e he
    · rw [hacS, hanS]
      exact h5
    · rw [hacS]
      exact hp0c
    · rw [hheap p0 (hcold p0 (mem_valuesOf.2 ⟨(0, p0), hp0c, rfl⟩))]
      exact hp0n
    · rw [hheap p0 (hcold p0 (mem_valuesOf.2 ⟨(0, p0), hp0c, rfl⟩))]
      exact hp0cur
    · rw [hanS, hacS]
      intro q' hq' hc
      rw [hheap q' (hnold q' hq')] at hc
      exact h7 q' hq' hc
    · rw [hanS, hapS]
      intro q' hq'
      have := h8 q' hq'
      omega
  | none =>
    have hnmA : ((allocItem st nm c).1.heap (allocItem st nm c).2).m_netname = nm := by
      rw [hstA2, hAheapP]
    have hnm : ¬ containsKey st.m_netNames nm := by
      have h := (lookupKey_eq_none _ _).1 hlk
      rw [hnmA] at h
      exact h
    by_cases hcond : ((allocItem st nm c).1.heap (allocItem st nm c).2).m_netCode ≠
        ((allocItem st nm c).1.m_netCodes.length : Int) ∨
        ((allocItem st nm c).1.heap (allocItem st nm c).2).m_netCode < 0
    · obtain ⟨han, hac, -, -, hap, hahp, hahq⟩ := AppendNet_alloc _ _ hlk hcond
      obtain ⟨-, hgt, -, -⟩ := getFreeNetCode_spec (allocItem st nm c).1
      rw [hnmA] at han
      rw [happly]
      refine WF7_insert st _ ((allocItem st nm c).2)
        ((getFreeNetCode (allocItem st nm c).1).1) nm
        ⟨h1, h2, h3, h4, h5, ⟨p0, hp0c, hp0n, hp0cur⟩, h7, h8⟩ hnm (by omega)
        (le_of_eq hstA2.symm) hac han ?_ ?_ ?_
      · rw [hahp, hstA2, hAheapP]
      · intro q' hq'
        rw [hahq q' hq']
        exact hAheapQ q' hq'
      · rw [hap]
        show st.nextPtr < st.nextPtr + 1 ∧ st.nextPtr ≤ st.nextPtr + 1
        omega
    · have hceq : ((allocItem st nm c).1.heap (allocItem st nm c).2).m_netCode =
          ((allocItem st nm c).1.m_netCodes.length : Int) := by
        rw [not_or] at hcond
        have h := hcond.1
        omega
      have hc2 : c = ((allocItem st nm c).1.m_netCodes.length : Int) := by
        have h := hceq
        rw [hstA2, hAheapP] at h
        exact h
      have hlpos : 0 < st.m_netCodes.length :=
        List.length_pos.2 (List.ne_nil_of_mem hp0c)
      obtain ⟨han, hac, -, -, hap, hahp⟩ := AppendNet_keep _ _ hlk hcond
      rw [hceq] at hac
      rw [hnmA] at han
      rw [happly]
      refine WF7_insert st _ ((allocItem st nm c).2)
        ((allocItem st nm c).1.m_netCodes.length : Int) nm
        ⟨h1, h2, h3, h4, h5, ⟨p0, hp0c, hp0n, hp0cur⟩, h7, h8⟩ hnm ?_
        (le_of_eq hstA2.symm) hac han ?_ ?_ ?_
      · show (1 : Int) ≤ ((st.m_netCodes.length : Int))
        omega
      · rw [hahp, hstA2, hAheapP, ← hc2]
      · intro q' hq'
        rw [hahp]
        exact hAheapQ q' hq'
      · rw [hap]
        show st.nextPtr < st.nextPtr + 1 ∧ st.nextPtr ≤ st.nextPtr + 1
        omega

theorem WF7_step (st : NetState) (op : RegOp) (hwf : WF7 st)
    (hl : legalOp st op = true) : WF7 (applyOp st op) := by
  cases op with
  | append nm c => exact WF7_append st nm c hwf
  | removeOp p => exact WF7_remove st p hwf hl
  | prune => exact WF7_prune st hwf
  | setCurrent p b => exact WF7_setCurrent st p b hwf hl

theorem WF7_run (ops : List RegOp) :
    ∀ st, WF7 st → legalTrace st ops = true → WF7 (runOps st ops) := by
  induction ops with
  | nil => intro st hwf _; exact hwf
  | cons op t ih =>
    intro st hwf hl
    simp only [legalTrace, Bool.and_eq_true] at hl
    exact ih (applyOp st op) (WF7_step st op hwf hl.1) hl.2

/-- C7 (spec-modelled for record construction and the liveness flag, which
live in the missing header): at every quiescent point of any legal sequence
of registry operations starting from the fresh registry — appends of freshly
constructed records, removals of records other than the reserved code-0
record, prunes, and liveness updates that never mark the reserved record
non-current — exactly one record reachable through the indices has code 0,
it carries the reserved empty name, and distinct reachable records have
distinct (code, name) pairs. -/
theorem C7_quiescent_invariant (ops : List RegOp)
    (hl : legalTrace freshRegistry ops = true) :
    (∃ p0 : Nat,
      (p0 ∈ valuesOf (runOps freshRegistry ops).m_netNames ∨
       p0 ∈ valuesOf (runOps freshRegistry ops).m_netCodes) ∧
      ((runOps freshRegistry ops).heap p0).m_netCode = 0 ∧
      ((runOps freshRegistry ops).heap p0).m_netname = "" ∧
      (∀ q : Nat,
        (q ∈ valuesOf (runOps freshRegistry ops).m_netNames ∨
         q ∈ valuesOf (runOps freshRegistry ops).m_netCodes) →
        ((runOps freshRegistry ops).heap q).m_netCode = 0 → q = p0)) ∧
    (∀ q r : Nat,
      (q ∈ valuesOf (runOps freshRegistry ops).m_netNames ∨
       q ∈ valuesOf (runOps freshRegistry ops).m_netCodes) →
      (r ∈ valuesOf (runOps freshRegistry ops).m_netNames ∨
       r ∈ valuesOf (runOps freshRegistry ops).m_netCodes) →
      q ≠ r →
      (((runOps freshRegistry ops).heap q).m_netCode,
        ((runOps freshRegistry ops).heap q).m_netname) ≠
      (((runOps freshRegistry ops).heap r).m_netCode,
        ((runOps freshRegistry ops).heap r).m_netname)) := by
  obtain ⟨h1, h2, h3, h4, h5, ⟨p0, hp0c, hp0n, hp0cur⟩, h7, h8⟩ :=
    WF7_run ops freshRegistry WF7_fresh hl
  set st := runOps freshRegistry ops
  have hreach : ∀ q : Nat, (q ∈ valuesOf st.m_netNames ∨ q ∈ valuesOf st.m_netCodes) →
      q ∈ valuesOf st.m_netNames := by
    rintro q (h | h)
    · exact h
    · exact h5 q h
  refine ⟨⟨p0, Or.inr (mem_valuesOf.2 ⟨(0, p0), hp0c, rfl⟩), h3 (0, p0) hp0c, hp0n, ?_⟩, ?_⟩
  · intro q hq hc
    have hmem := h7 q (hreach q hq) hc
    have heq := entry_unique_fst h1.nodup hmem hp0c rfl
    exact congrArg Prod.snd heq
  · intro q r hq hr hne hpair
    have hnm : (st.heap q).m_netname = (st.heap r).m_netname := congrArg Prod.snd hpair
    rcases mem_valuesOf.1 (hreach q hq) with ⟨en, hen, hen2⟩
    rcases mem_valuesOf.1 (hreach r hr) with ⟨er, her, her2⟩
    have hk1 : en.1 = (st.heap q).m_netname := by rw [← h4 en hen, hen2]
    have hk2 : er.1 = (st.heap r).m_netname := by rw [← h4 er her, her2]
    have heq : en = er := entry_unique_fst h2 hen her (by rw [hk1, hk2, hnm])
    exact hne (by rw [← hen2, ← her2, heq])

/-- Operation sequence witnessing C7: append "GND", orphan it, prune it
away (so the sink path and both prune branches run), append "X" with an
ill-formed proposed code, and remove it again. -/
def wit7ops : List RegOp :=
  [RegOp.append "GND" (-1), RegOp.setCurrent 1 false, RegOp.prune,
   RegOp.append "X" 5, RegOp.removeOp 2]

/-- Witness for C7 on the concrete legal trace `wit7ops`. -/
theorem C7_witness :
    legalTrace freshRegistry wit7ops = true ∧
    ((∃ p0 : Nat,
      (p0 ∈ valuesOf (runOps freshRegistry wit7ops).m_netNames ∨
       p0 ∈ valuesOf (runOps freshRegistry wit7ops).m_netCodes) ∧
      ((runOps freshRegistry wit7ops).heap p0).m_netCode = 0 ∧
      ((runOps freshRegistry wit7ops).heap p0).m_netname = "" ∧
      (∀ q : Nat,
        (q ∈ valuesOf (runOps freshRegistry wit7ops).m_netNames ∨
         q ∈ valuesOf (runOps freshRegistry wit7ops).m_netCodes) →
        ((runOps freshRegistry wit7ops).heap q).m_netCode = 0 → q = p0)) ∧
    (∀ q r : Nat,
      (q ∈ valuesOf (runOps freshRegistry wit7ops).m_netNames ∨
       q ∈ valuesOf (runOps freshRegistry wit7ops).m_netCodes) →
      (r ∈ valuesOf (runOps freshRegistry wit7ops).m_netNames ∨
       r ∈ valuesOf (runOps freshRegistry wit7ops).m_netCodes) →
      q ≠ r →
      (((runOps freshRegistry wit7ops).heap q).m_netCode,
        ((runOps freshRegistry wit7ops).heap q).m_netname) ≠
      (((runOps freshRegistry wit7ops).heap r).m_netCode,
        ((runOps freshRegistry wit7ops).heap r).m_netname))) :=
  ⟨by decide, C7_quiescent_invariant wit7ops (by decide)⟩
